import Mathlib

/-!
Verification of the `glimix_core.lmm` core (LMM fit engine and FastScanner)
against its natural-language specification.

The development shallowly embeds `src/glimix_core/lmm/_lmm.py` and
`src/glimix_core/lmm/_scan.py` over the real numbers: every Python float
is modelled as a real number, every numpy vector or matrix as a function
out of `Fin`, and every method that can raise `ValueError` returns
`Except Unit`.  External numeric collaborators (`numpy_sugar.epsilon`,
`numpy_sugar.linalg.rsolve`, the SVD of the covariates matrix,
`glimix_core._util.hsolve`) are not part of the repository's staged
sources; they are modelled by explicit definitions or oracle parameters,
each documented at its definition site.
-/

open Classical Matrix

noncomputable section

namespace GlimixCore

/-- Value of `numpy_sugar.epsilon.tiny`, the smallest positive normal
binary64 number `2⁻¹⁰²²`, used by `LMM.delta` as a numerical floor. -/
def epsilonTiny : ℝ := ((2:ℝ) ^ (1022:ℕ))⁻¹

/-- Value of `numpy_sugar.epsilon.small`, the binary64 machine epsilon
`2⁻⁵²`, used as the floor of the optimal scale and of `_safe_log`. -/
def epsilonSmall : ℝ := ((2:ℝ) ^ (52:ℕ))⁻¹

theorem epsilonTiny_pos : 0 < epsilonTiny := by
  unfold epsilonTiny; positivity

theorem epsilonTiny_le_one : epsilonTiny ≤ 1 := by
  unfold epsilonTiny
  rw [inv_le_one_iff₀]
  right
  exact one_le_pow₀ (by norm_num)

theorem epsilonSmall_pos : 0 < epsilonSmall := by
  unfold epsilonSmall; positivity

theorem epsilonSmall_le_one : epsilonSmall ≤ 1 := by
  unfold epsilonSmall
  rw [inv_le_one_iff₀]
  right
  exact one_le_pow₀ (by norm_num)

/-- The constant `log2pi = log(2·π)` of `glimix_core._util`. -/
def log2pi : ℝ := Real.log (2 * Real.pi)

/-- The clamp applied by the `delta` property (setter and getter) of `LMM`:
`min(max(delta, epsilon.tiny), 1 - epsilon.tiny)`.  The upper bound is the
binary64 value of the Python expression `1 - epsilon.tiny`: since
`epsilon.tiny = 2⁻¹⁰²² < 2⁻⁵³`, that subtraction rounds to exactly `1.0`,
which is the one floating-point rounding fact this embedding bakes in. -/
def clampDelta (d : ℝ) : ℝ := min (max d epsilonTiny) 1

theorem clampDelta_one : clampDelta 1 = 1 := by
  unfold clampDelta
  rw [max_eq_left epsilonTiny_le_one, min_self]

/-- State of an `LMM` object (`glimix_core/lmm/_lmm.py`) with `n` samples,
a rank-`k` spectral decomposition of the relatedness matrix `K`, and
covariates of rank `r`.

The covariates are held, as in the source, through the economic SVD of
`X`: the field `US` is `self._Xsvd.US` (the `n×r` product of the left
singular vectors and the singular values), modelled from the spec's
CovariateReduction component since the `SVD` helper of
`glimix_core._util` is not among the staged sources.  `deltaStored` holds
the image of the logistic parameter under the sigmoid: the source stores
`log(δ/(1-δ))` and the getter applies the sigmoid, a round trip which is
the identity on the clamped range, so the sigmoid image is stored
directly. -/
@[ext]
structure LMMData (n k r : ℕ) where
  y : Fin n → ℝ
  US : Matrix (Fin n) (Fin r) ℝ
  Q0 : Matrix (Fin n) (Fin k) ℝ
  S0 : Fin k → ℝ
  deltaStored : ℝ
  scale : ℝ
  tbeta : Fin r → ℝ
  restricted : Bool
  optimalBeta : Bool
  optimalScale : Bool
  fixBeta : Bool
  fixScale : Bool
  logisticFixed : Bool

namespace LMMData

variable {n k r : ℕ}

/-- The `delta` property getter: sigmoid of the stored logistic, clamped. -/
def delta (s : LMMData n k r) : ℝ := clampDelta s.deltaStored

/-- The `delta` property setter: clamp, store, and clear the optimal-β and
optimal-scale flags (also the effect of the `_delta_update` listener). -/
def setDelta (s : LMMData n k r) (d : ℝ) : LMMData n k r :=
  { s with deltaStored := clampDelta d, optimalBeta := false, optimalScale := false }

/-- The property `_D0 = (1-δ)·S0 + δ`. -/
def D0 (s : LMMData n k r) : Fin k → ℝ := fun i => (1 - s.delta) * s.S0 i + s.delta

/-- The property `_yTQ0 = yᵀ Q0`. -/
def yTQ0 (s : LMMData n k r) : Fin k → ℝ := fun i => ∑ j, s.y j * s.Q0 j i

/-- The property `_tXTQ0 = (US)ᵀ Q0`. -/
def tXTQ0 (s : LMMData n k r) : Matrix (Fin r) (Fin k) ℝ :=
  Matrix.of fun a i => ∑ j, s.US j a * s.Q0 j i

/-- The property `_yTQ0xQ0Ty = (yᵀQ0)²` (elementwise square). -/
def yTQ0xQ0Ty (s : LMMData n k r) : Fin k → ℝ := fun i => s.yTQ0 i ^ 2

/-- The property `_yTQ0D0iQ0Ty = Σ (yᵀQ0)²/D0`. -/
def yTQ0D0iQ0Ty (s : LMMData n k r) : ℝ := ∑ i, s.yTQ0xQ0Ty i / s.D0 i

/-- The property `_yTMy`. -/
def yTMy (s : LMMData n k r) : ℝ :=
  s.yTQ0D0iQ0Ty + ((∑ j, s.y j * s.y j) - ∑ i, s.yTQ0xQ0Ty i) / s.delta

/-- The property `_yTQ0D0iQ0TtX = (yᵀQ0/D0) (USᵀQ0)ᵀ`. -/
def yTQ0D0iQ0TtX (s : LMMData n k r) : Fin r → ℝ :=
  fun a => ∑ i, s.yTQ0 i / s.D0 i * s.tXTQ0 a i

/-- The property `_yTQ0Q0TtX = (yᵀQ0) (USᵀQ0)ᵀ`. -/
def yTQ0Q0TtX (s : LMMData n k r) : Fin r → ℝ :=
  fun a => ∑ i, s.yTQ0 i * s.tXTQ0 a i

/-- The property `_yTMtX`. -/
def yTMtX (s : LMMData n k r) : Fin r → ℝ :=
  fun a => s.yTQ0D0iQ0TtX a + ((∑ j, s.y j * s.US j a) - s.yTQ0Q0TtX a) / s.delta

/-- The property `_tXTQ0D0iQ0TtX = (USᵀQ0/D0) (USᵀQ0)ᵀ`. -/
def tXTQ0D0iQ0TtX (s : LMMData n k r) : Matrix (Fin r) (Fin r) ℝ :=
  Matrix.of fun a b => ∑ i, s.tXTQ0 a i / s.D0 i * s.tXTQ0 b i

/-- The property `_tXTQ0Q0TtX = (USᵀQ0)(USᵀQ0)ᵀ`. -/
def tXTQ0Q0TtX (s : LMMData n k r) : Matrix (Fin r) (Fin r) ℝ :=
  Matrix.of fun a b => ∑ i, s.tXTQ0 a i * s.tXTQ0 b i

/-- The Gram matrix `(US)ᵀ(US)` appearing in `_logdetXX` and `_tXTMtX`. -/
def XtX (s : LMMData n k r) : Matrix (Fin r) (Fin r) ℝ :=
  Matrix.of fun a b => ∑ j, s.US j a * s.US j b

/-- The property `_tXTMtX`. -/
def tXTMtX (s : LMMData n k r) : Matrix (Fin r) (Fin r) ℝ :=
  Matrix.of fun a b =>
    s.tXTQ0D0iQ0TtX a b + (s.XtX a b - s.tXTQ0Q0TtX a b) / s.delta

/-- The property `_logdetD`: `Σ log((1-δ)S0+δ) + (n-k)·log δ`. -/
def logdetD (s : LMMData n k r) : ℝ :=
  (∑ i, Real.log ((1 - s.delta) * s.S0 i + s.delta)) + ((n : ℝ) - k) * Real.log s.delta

/-- The property `_df`: degrees of freedom, `n` (ML) or `n - rank` (REML). -/
def df (s : LMMData n k r) : ℝ := if s.restricted then (n : ℝ) - r else n

/-- The method `mean() = US·(tbeta)`. -/
def mean (s : LMMData n k r) : Fin n → ℝ := fun j => ∑ a, s.US j a * s.tbeta a

/-- The properties `v0 = s(1-δ)` and `v1 = sδ`. -/
def v0 (s : LMMData n k r) : ℝ := s.scale * (1 - s.delta)

/-- The property `v1 = sδ`. -/
def v1 (s : LMMData n k r) : ℝ := s.scale * s.delta

/-- The method `covariance() = sum2diag(Q0·diag(v0·S0)·Q0ᵀ, v1)`. -/
def covariance (s : LMMData n k r) : Matrix (Fin n) (Fin n) ℝ :=
  Matrix.of fun a b =>
    (∑ i, s.Q0 a i * (s.v0 * s.S0 i) * s.Q0 b i) + (if a = b then s.v1 else 0)

/-- The method `_lml_optimal_scale`:
`lml = (-df·log2π - df - n·log s - log|D|)/2`. -/
def lmlOptimalScale (s : LMMData n k r) : ℝ :=
  (-s.df * log2pi - s.df - n * Real.log s.scale - s.logdetD) / 2

/-- The method `_lml_arbitrary_scale`: the non-optimal-scale marginal
log-likelihood, with the residual quadratic form assembled from the
cached projections exactly as in the source (`t0 + t1 - t2`). -/
def lmlArbitraryScale (s : LMMData n k r) : ℝ :=
  let my : Fin n → ℝ := fun j => s.mean j - s.y j
  let myTQ0 : Fin k → ℝ := fun i => ∑ j, my j * s.Q0 j i
  let t0 : ℝ := ∑ i, myTQ0 i / s.D0 i * myTQ0 i
  let t1 : ℝ := (∑ j, my j * my j) / s.delta
  let t2 : ℝ := (∑ i, myTQ0 i * myTQ0 i) / s.delta
  (-s.df * log2pi - n * Real.log s.scale - s.logdetD - (t0 + t1 - t2) / s.scale) / 2

/-- The method `_logdetXX`: `0` unless restricted; for REML the
log-determinant of `(US)ᵀ(US)`, raising (`Except.error`) when `slogdet`
reports a non-positive sign. -/
def logdetXX (s : LMMData n k r) : Except Unit ℝ :=
  if s.restricted = false then Except.ok 0
  else if 0 < s.XtX.det then Except.ok (Real.log s.XtX.det)
  else Except.error ()

/-- The `H` matrix of `_logdetH`: `tXTMtX / scale` (elementwise). -/
def Hmat (s : LMMData n k r) : Matrix (Fin r) (Fin r) ℝ :=
  Matrix.of fun a b => s.tXTMtX a b / s.scale

/-- The method `_logdetH`: `0` unless restricted; for REML the
log-determinant of `tXTMtX/s`, raising on a non-positive sign. -/
def logdetH (s : LMMData n k r) : Except Unit ℝ :=
  if s.restricted = false then Except.ok 0
  else if 0 < s.Hmat.det then Except.ok (Real.log s.Hmat.det)
  else Except.error ()

/-- The method `lml()`: the REML correction `(logdetXX - logdetH)/2` is
computed first (possibly raising), then the optimal-scale or
arbitrary-scale branch is selected by the optimal-scale flag. -/
def lml (s : LMMData n k r) : Except Unit ℝ := do
  let a ← s.logdetXX
  let b ← s.logdetH
  let reml := (a - b) / 2
  let base := if s.optimalScale then s.lmlOptimalScale else s.lmlArbitraryScale
  pure (base + reml)

/-- Model of `numpy_sugar.linalg.rsolve` (an external collaborator, not a
staged source): for an invertible matrix it returns the exact solution of
`A x = b`; for a singular matrix the library falls back to a least-squares
solution, a case on which no theorem below relies (Mathlib's nonsingular
inverse returns the zero matrix there). -/
def rsolve {m : ℕ} (A : Matrix (Fin m) (Fin m) ℝ) (b : Fin m → ℝ) : Fin m → ℝ :=
  A⁻¹.mulVec b

/-- The method `_update_beta`: recompute the reduced-basis coefficients in
closed form (`rsolve(tXTMtX, yTMtX)`) unless already optimal, set the
optimal-β flag and clear the optimal-scale flag. -/
def updateBeta (s : LMMData n k r) : LMMData n k r :=
  if s.optimalBeta then s
  else { s with tbeta := rsolve s.tXTMtX s.yTMtX, optimalBeta := true, optimalScale := false }

/-- The method `_optimal_scale_using_optimal_beta`:
`max((yTMy - yTMtX·tbeta)/df, epsilon.small)`. -/
def optimalScaleUsingOptimalBeta (s : LMMData n k r) : ℝ :=
  max ((s.yTMy - ∑ a, s.yTMtX a * s.tbeta a) / s.df) epsilonSmall

/-- The method `_update_scale`: the closed-form scale, floored at
`epsilon.small`, via the short form when β is optimal and the full
quadratic form otherwise; sets the optimal-scale flag. -/
def updateScale (s : LMMData n k r) : LMMData n k r :=
  let p0 := s.yTMy - 2 * ∑ a, s.yTMtX a * s.tbeta a
  let p1 := ∑ a, ∑ b, s.tbeta a * s.tXTMtX a b * s.tbeta b
  let news :=
    if s.optimalBeta then s.optimalScaleUsingOptimalBeta
    else max ((p0 + p1) / s.df) epsilonSmall
  { s with scale := news, optimalScale := true }

/-- The method `value()` (internal objective of the optimizer): update β
and scale when not user-fixed, then return `lml()` on the updated state. -/
def valueState (s : LMMData n k r) : LMMData n k r :=
  let s1 := if s.fixBeta then s else s.updateBeta
  if s1.fixScale then s1 else s1.updateScale

/-- The value `value()` returns: `lml()` of the updated state. -/
def valueLml (s : LMMData n k r) : Except Unit ℝ := s.valueState.lml

/-- The method `fit()`: when the logistic (δ) parameter is not fixed, a
bounded 1-D maximization moves it; `dopt` is the δ value the optimizer
settles on (the search itself only mutates δ and the staleness flags,
which the closing updates below overwrite).  Then β and scale are updated
in closed form when not user-fixed. -/
def fit (s : LMMData n k r) (dopt : ℝ) : LMMData n k r :=
  let s0 := if s.logisticFixed then s else s.setDelta dopt
  let s1 := if s0.fixBeta then s0 else s0.updateBeta
  if s1.fixScale then s1 else s1.updateScale

/-- State built by the constructor `LMM.__init__`.  `qsGiven = false` is
the `QS=None` path: the decomposition is replaced by
`economic_qs_zeros(len(y))` (rank `k = 0`; modelled from the spec:
`economic_qs_zeros` lives in `glimix_core._util`, which is not among the
staged sources, and the spec states that `QS=None` forces the degenerate
rank-0, δ=1 model), `delta` is set to `1.0` and the logistic is fixed;
otherwise `delta` is set to `0.5`.  `tbeta` starts at zero, `scale` at
`1.0`, all flags cleared. -/
def initLMM (qsGiven : Bool) (y : Fin n → ℝ) (US : Matrix (Fin n) (Fin r) ℝ)
    (Q0 : Matrix (Fin n) (Fin k) ℝ) (S0 : Fin k → ℝ) (restricted : Bool) :
    LMMData n k r :=
  { y := y, US := US, Q0 := Q0, S0 := S0,
    deltaStored := clampDelta (if qsGiven then 0.5 else 1),
    scale := 1, tbeta := fun _ => 0, restricted := restricted,
    optimalBeta := false, optimalScale := false,
    fixBeta := false, fixScale := false,
    logisticFixed := !qsGiven }

/-- The weighting matrix `M = ((1-δ)K + δI)⁻¹ = Q0·D0⁻¹·Q0ᵀ + δ⁻¹(I - Q0·Q0ᵀ)`
of the source's notes: the spec-level object behind the cached quadratic
forms. -/
def Mmat (s : LMMData n k r) : Matrix (Fin n) (Fin n) ℝ :=
  Matrix.of fun a b =>
    (∑ i, s.Q0 a i / s.D0 i * s.Q0 b i)
      + ((if a = b then (1:ℝ) else 0) - ∑ i, s.Q0 a i * s.Q0 b i) / s.delta

/-- The D⁻¹-weighted residual sum of squares of the spec: the quadratic
form of the residual `y - Xβ` under the weighting matrix `M`. -/
def weightedRSS (s : LMMData n k r) : ℝ :=
  ∑ a, ∑ b, (s.y a - s.mean a) * s.Mmat a b * (s.y b - s.mean b)

/-- Projection of a vector onto the eigenbasis: `uᵀQ0`. -/
def vTQ0 (s : LMMData n k r) (u : Fin n → ℝ) : Fin k → ℝ :=
  fun i => ∑ a, u a * s.Q0 a i

theorem vTQ0_y (s : LMMData n k r) : s.vTQ0 s.y = s.yTQ0 := rfl

/-- Sum algebra: a quadratic form through a rank-`l` factor `Q` with
diagonal weights `c` reduces to weighted products of projections. -/
theorem triple_expand {m l : ℕ} (Q : Fin m → Fin l → ℝ) (c : Fin l → ℝ)
    (u w : Fin m → ℝ) :
    (∑ a, ∑ b, u a * (∑ i, Q a i * c i * Q b i) * w b)
      = ∑ i, (∑ a, u a * Q a i) * c i * (∑ b, w b * Q b i) := by
  have h1 : (∑ a, ∑ b, u a * (∑ i, Q a i * c i * Q b i) * w b)
      = ∑ a, ∑ b, ∑ i, u a * (Q a i * c i * Q b i) * w b := by
    simp [Finset.mul_sum, Finset.sum_mul]
  have h2 : (∑ a, ∑ b, ∑ i, u a * (Q a i * c i * Q b i) * w b)
      = ∑ i, ∑ a, ∑ b, u a * (Q a i * c i * Q b i) * w b := by
    calc (∑ a, ∑ b, ∑ i, u a * (Q a i * c i * Q b i) * w b)
        = ∑ a, ∑ i, ∑ b, u a * (Q a i * c i * Q b i) * w b :=
          Finset.sum_congr rfl fun a _ => by rw [Finset.sum_comm]
      _ = ∑ i, ∑ a, ∑ b, u a * (Q a i * c i * Q b i) * w b := by
          rw [Finset.sum_comm]
  rw [h1, h2]
  refine Finset.sum_congr rfl fun i _ => ?_
  have h3 : (∑ a, u a * Q a i) * c i * (∑ b, w b * Q b i)
      = (∑ a, u a * Q a i * c i) * ∑ b, w b * Q b i := by
    rw [Finset.sum_mul]
  rw [h3, Finset.sum_mul_sum]
  refine Finset.sum_congr rfl fun a _ => Finset.sum_congr rfl fun b _ => ?_
  ring

/-- Sum algebra: pulling a linear combination out of a dot product. -/
theorem sum_mul_swap {m l : ℕ} (f : Fin m → ℝ) (g : Fin l → Fin m → ℝ)
    (t : Fin l → ℝ) :
    (∑ i, f i * ∑ c, t c * g c i) = ∑ c, (∑ i, f i * g c i) * t c := by
  calc (∑ i, f i * ∑ c, t c * g c i)
      = ∑ i, ∑ c, f i * (t c * g c i) := by simp [Finset.mul_sum]
    _ = ∑ c, ∑ i, f i * (t c * g c i) := by rw [Finset.sum_comm]
    _ = ∑ c, (∑ i, f i * g c i) * t c := by
        refine Finset.sum_congr rfl fun c _ => ?_
        rw [Finset.sum_mul]
        refine Finset.sum_congr rfl fun i _ => ?_
        ring

/-- Workhorse: the quadratic form `uᵀ M w` of the weighting matrix reduces
to eigenbasis projections plus the δ-scaled null-space remainder. -/
theorem quadM_expand (s : LMMData n k r) (u w : Fin n → ℝ) :
    (∑ a, ∑ b, u a * s.Mmat a b * w b)
      = (∑ i, s.vTQ0 u i * s.vTQ0 w i / s.D0 i)
        + ((∑ a, u a * w a) - ∑ i, s.vTQ0 u i * s.vTQ0 w i) / s.delta := by
  have key : ∀ c : Fin k → ℝ,
      (∑ a, ∑ b, u a * (∑ i, s.Q0 a i * c i * s.Q0 b i) * w b)
        = ∑ i, s.vTQ0 u i * c i * s.vTQ0 w i := by
    intro c
    rw [triple_expand]
    exact Finset.sum_congr rfl fun i _ => by rw [vTQ0, vTQ0]
  have hid : (∑ a, ∑ b, u a * (if a = b then (1:ℝ) else 0) * w b)
      = ∑ a, u a * w a := by
    refine Finset.sum_congr rfl fun a _ => ?_
    simp [mul_ite, ite_mul, Finset.sum_ite_eq]
  have hc1 : (∑ a, ∑ b, u a * (∑ i, s.Q0 a i / s.D0 i * s.Q0 b i) * w b)
      = ∑ i, s.vTQ0 u i * s.vTQ0 w i / s.D0 i := by
    have hk := key fun i => (s.D0 i)⁻¹
    calc (∑ a, ∑ b, u a * (∑ i, s.Q0 a i / s.D0 i * s.Q0 b i) * w b)
        = ∑ a, ∑ b, u a * (∑ i, s.Q0 a i * (s.D0 i)⁻¹ * s.Q0 b i) * w b := by
          simp [div_eq_mul_inv]
      _ = ∑ i, s.vTQ0 u i * (s.D0 i)⁻¹ * s.vTQ0 w i := hk
      _ = ∑ i, s.vTQ0 u i * s.vTQ0 w i / s.D0 i := by
          refine Finset.sum_congr rfl fun i _ => ?_
          ring
  have hc2 : (∑ a, ∑ b, u a * (∑ i, s.Q0 a i * s.Q0 b i) * w b)
      = ∑ i, s.vTQ0 u i * s.vTQ0 w i := by
    have hk := key fun _ => (1:ℝ)
    calc (∑ a, ∑ b, u a * (∑ i, s.Q0 a i * s.Q0 b i) * w b)
        = ∑ a, ∑ b, u a * (∑ i, s.Q0 a i * 1 * s.Q0 b i) * w b := by simp
      _ = ∑ i, s.vTQ0 u i * 1 * s.vTQ0 w i := hk
      _ = ∑ i, s.vTQ0 u i * s.vTQ0 w i := by simp
  calc (∑ a, ∑ b, u a * s.Mmat a b * w b)
      = ∑ a, ∑ b, (u a * (∑ i, s.Q0 a i / s.D0 i * s.Q0 b i) * w b
          + (u a * (if a = b then (1:ℝ) else 0) * w b) / s.delta
          - (u a * (∑ i, s.Q0 a i * s.Q0 b i) * w b) / s.delta) := by
        refine Finset.sum_congr rfl fun a _ => Finset.sum_congr rfl fun b _ => ?_
        simp only [Mmat, Matrix.of_apply]
        ring
    _ = (∑ a, ∑ b, u a * (∑ i, s.Q0 a i / s.D0 i * s.Q0 b i) * w b)
          + (∑ a, ∑ b, (u a * (if a = b then (1:ℝ) else 0) * w b) / s.delta)
          - ∑ a, ∑ b, (u a * (∑ i, s.Q0 a i * s.Q0 b i) * w b) / s.delta := by
        simp [Finset.sum_add_distrib, Finset.sum_sub_distrib]
    _ = (∑ a, ∑ b, u a * (∑ i, s.Q0 a i / s.D0 i * s.Q0 b i) * w b)
          + (∑ a, ∑ b, u a * (if a = b then (1:ℝ) else 0) * w b) / s.delta
          - (∑ a, ∑ b, u a * (∑ i, s.Q0 a i * s.Q0 b i) * w b) / s.delta := by
        simp [← Finset.sum_div]
    _ = (∑ i, s.vTQ0 u i * s.vTQ0 w i / s.D0 i)
          + ((∑ a, u a * w a) - ∑ i, s.vTQ0 u i * s.vTQ0 w i) / s.delta := by
        rw [hid, hc1, hc2]
        ring

theorem vTQ0_mean (s : LMMData n k r) :
    s.vTQ0 s.mean = fun i => ∑ c, s.tbeta c * s.tXTQ0 c i := by
  funext i
  calc (∑ a, s.mean a * s.Q0 a i)
      = ∑ a, ∑ c, s.US a c * s.tbeta c * s.Q0 a i := by
        refine Finset.sum_congr rfl fun a _ => ?_
        rw [mean, Finset.sum_mul]
    _ = ∑ c, ∑ a, s.US a c * s.tbeta c * s.Q0 a i := by rw [Finset.sum_comm]
    _ = ∑ c, s.tbeta c * s.tXTQ0 c i := by
        refine Finset.sum_congr rfl fun c _ => ?_
        rw [tXTQ0, Matrix.of_apply, Finset.mul_sum]
        refine Finset.sum_congr rfl fun a _ => ?_
        ring

theorem quad_y_y (s : LMMData n k r) :
    (∑ a, ∑ b, s.y a * s.Mmat a b * s.y b) = s.yTMy := by
  rw [quadM_expand, vTQ0_y, yTMy, yTQ0D0iQ0Ty]
  simp [yTQ0xQ0Ty, pow_two]

theorem quad_y_mean (s : LMMData n k r) :
    (∑ a, ∑ b, s.y a * s.Mmat a b * s.mean b) = ∑ a, s.yTMtX a * s.tbeta a := by
  rw [quadM_expand, vTQ0_y, vTQ0_mean]
  have p1 : (∑ i, s.yTQ0 i * (∑ c, s.tbeta c * s.tXTQ0 c i) / s.D0 i)
      = ∑ c, s.yTQ0D0iQ0TtX c * s.tbeta c := by
    have h := sum_mul_swap (fun i => s.yTQ0 i / s.D0 i)
      (fun c i => s.tXTQ0 c i) s.tbeta
    calc (∑ i, s.yTQ0 i * (∑ c, s.tbeta c * s.tXTQ0 c i) / s.D0 i)
        = ∑ i, (s.yTQ0 i / s.D0 i) * ∑ c, s.tbeta c * s.tXTQ0 c i := by
          refine Finset.sum_congr rfl fun i _ => ?_
          ring
      _ = ∑ c, (∑ i, s.yTQ0 i / s.D0 i * s.tXTQ0 c i) * s.tbeta c := h
      _ = ∑ c, s.yTQ0D0iQ0TtX c * s.tbeta c := rfl
  have p2 : (∑ a, s.y a * s.mean a) = ∑ c, (∑ j, s.y j * s.US j c) * s.tbeta c := by
    have h := sum_mul_swap s.y (fun c a => s.US a c) s.tbeta
    calc (∑ a, s.y a * s.mean a)
        = ∑ a, s.y a * ∑ c, s.tbeta c * s.US a c := by
          refine Finset.sum_congr rfl fun a _ => ?_
          rw [mean]
          refine congrArg _ (Finset.sum_congr rfl fun c _ => ?_)
          ring
      _ = ∑ c, (∑ j, s.y j * s.US j c) * s.tbeta c := h
  have p3 : (∑ i, s.yTQ0 i * ∑ c, s.tbeta c * s.tXTQ0 c i)
      = ∑ c, s.yTQ0Q0TtX c * s.tbeta c := by
    exact sum_mul_swap s.yTQ0 (fun c i => s.tXTQ0 c i) s.tbeta
  calc (∑ i, s.yTQ0 i * (∑ c, s.tbeta c * s.tXTQ0 c i) / s.D0 i)
        + ((∑ a, s.y a * s.mean a) - ∑ i, s.yTQ0 i * ∑ c, s.tbeta c * s.tXTQ0 c i)
            / s.delta
      = (∑ c, s.yTQ0D0iQ0TtX c * s.tbeta c)
        + ((∑ c, (∑ j, s.y j * s.US j c) * s.tbeta c)
            - ∑ c, s.yTQ0Q0TtX c * s.tbeta c) / s.delta := by
        rw [p1, p2, p3]
    _ = ∑ a, s.yTMtX a * s.tbeta a := by
        rw [sub_div, Finset.sum_div, Finset.sum_div, ← Finset.sum_sub_distrib,
          ← Finset.sum_add_distrib]
        refine Finset.sum_congr rfl fun c _ => ?_
        rw [yTMtX]
        ring

theorem quad_mean_mean (s : LMMData n k r) :
    (∑ a, ∑ b, s.mean a * s.Mmat a b * s.mean b)
      = ∑ a, ∑ b, s.tbeta a * s.tXTMtX a b * s.tbeta b := by
  rw [quadM_expand, vTQ0_mean]
  have t1 : (∑ i, (∑ c, s.tbeta c * s.tXTQ0 c i) * (∑ c, s.tbeta c * s.tXTQ0 c i)
        / s.D0 i)
      = ∑ c, ∑ d, s.tbeta c * s.tXTQ0D0iQ0TtX c d * s.tbeta d := by
    have h := triple_expand (fun (c : Fin r) i => s.tXTQ0 c i)
      (fun i => (s.D0 i)⁻¹) s.tbeta s.tbeta
    calc (∑ i, (∑ c, s.tbeta c * s.tXTQ0 c i) * (∑ c, s.tbeta c * s.tXTQ0 c i)
          / s.D0 i)
        = ∑ i, (∑ a, s.tbeta a * s.tXTQ0 a i) * (s.D0 i)⁻¹
            * (∑ b, s.tbeta b * s.tXTQ0 b i) := by
          refine Finset.sum_congr rfl fun i _ => ?_
          ring
      _ = ∑ c, ∑ d, s.tbeta c * (∑ i, s.tXTQ0 c i * (s.D0 i)⁻¹ * s.tXTQ0 d i)
            * s.tbeta d := h.symm
      _ = ∑ c, ∑ d, s.tbeta c * s.tXTQ0D0iQ0TtX c d * s.tbeta d := by
          refine Finset.sum_congr rfl fun c _ => Finset.sum_congr rfl fun d _ => ?_
          rw [tXTQ0D0iQ0TtX, Matrix.of_apply]
          refine congrArg (· * s.tbeta d) (congrArg _ ?_)
          refine Finset.sum_congr rfl fun i _ => ?_
          ring
  have t2 : (∑ a, s.mean a * s.mean a)
      = ∑ c, ∑ d, s.tbeta c * s.XtX c d * s.tbeta d := by
    have h := triple_expand (fun (c : Fin r) j => s.US j c)
      (fun _ => (1:ℝ)) s.tbeta s.tbeta
    calc (∑ a, s.mean a * s.mean a)
        = ∑ j, (∑ a, s.tbeta a * s.US j a) * 1 * (∑ b, s.tbeta b * s.US j b) := by
          refine Finset.sum_congr rfl fun j _ => ?_
          rw [mean]
          have hc : (∑ a, s.US j a * s.tbeta a) = ∑ a, s.tbeta a * s.US j a :=
            Finset.sum_congr rfl fun a _ => by ring
          rw [hc]
          ring
      _ = ∑ c, ∑ d, s.tbeta c * (∑ j, s.US j c * 1 * s.US j d) * s.tbeta d := h.symm
      _ = ∑ c, ∑ d, s.tbeta c * s.XtX c d * s.tbeta d := by
          refine Finset.sum_congr rfl fun c _ => Finset.sum_congr rfl fun d _ => ?_
          rw [XtX, Matrix.of_apply]
          refine congrArg (· * s.tbeta d) (congrArg _ ?_)
          exact Finset.sum_congr rfl fun j _ => by ring
  have t3 : (∑ i, (∑ c, s.tbeta c * s.tXTQ0 c i) * ∑ c, s.tbeta c * s.tXTQ0 c i)
      = ∑ c, ∑ d, s.tbeta c * s.tXTQ0Q0TtX c d * s.tbeta d := by
    have h := triple_expand (fun (c : Fin r) i => s.tXTQ0 c i)
      (fun _ => (1:ℝ)) s.tbeta s.tbeta
    calc (∑ i, (∑ c, s.tbeta c * s.tXTQ0 c i) * ∑ c, s.tbeta c * s.tXTQ0 c i)
        = ∑ i, (∑ a, s.tbeta a * s.tXTQ0 a i) * 1 * (∑ b, s.tbeta b * s.tXTQ0 b i) := by
          refine Finset.sum_congr rfl fun i _ => ?_
          ring
      _ = ∑ c, ∑ d, s.tbeta c * (∑ i, s.tXTQ0 c i * 1 * s.tXTQ0 d i) * s.tbeta d :=
          h.symm
      _ = ∑ c, ∑ d, s.tbeta c * s.tXTQ0Q0TtX c d * s.tbeta d := by
          refine Finset.sum_congr rfl fun c _ => Finset.sum_congr rfl fun d _ => ?_
          rw [tXTQ0Q0TtX, Matrix.of_apply]
          refine congrArg (· * s.tbeta d) (congrArg _ ?_)
          exact Finset.sum_congr rfl fun i _ => by ring
  rw [t1, t2, t3]
  have dissect : ∀ F G H : Fin r → Fin r → ℝ,
      (∑ c, ∑ d, F c d) + ((∑ c, ∑ d, G c d) - ∑ c, ∑ d, H c d) / s.delta
        = ∑ c, ∑ d, (F c d + (G c d - H c d) / s.delta) := by
    intro F G H
    rw [← Finset.sum_sub_distrib, Finset.sum_div, ← Finset.sum_add_distrib]
    refine Finset.sum_congr rfl fun c _ => ?_
    rw [← Finset.sum_sub_distrib, Finset.sum_div, ← Finset.sum_add_distrib]
  rw [dissect]
  refine Finset.sum_congr rfl fun c _ => Finset.sum_congr rfl fun d _ => ?_
  rw [tXTMtX, Matrix.of_apply]
  ring

theorem quad_symm (s : LMMData n k r) (u w : Fin n → ℝ) :
    (∑ a, ∑ b, u a * s.Mmat a b * w b) = ∑ a, ∑ b, w a * s.Mmat a b * u b := by
  rw [quadM_expand, quadM_expand]
  have h1 : (∑ i, s.vTQ0 u i * s.vTQ0 w i / s.D0 i)
      = ∑ i, s.vTQ0 w i * s.vTQ0 u i / s.D0 i :=
    Finset.sum_congr rfl fun i _ => by ring
  have h2 : (∑ i, s.vTQ0 u i * s.vTQ0 w i) = ∑ i, s.vTQ0 w i * s.vTQ0 u i :=
    Finset.sum_congr rfl fun i _ => by ring
  have h3 : (∑ a, u a * w a) = ∑ a, w a * u a :=
    Finset.sum_congr rfl fun a _ => by ring
  rw [h1, h2, h3]

/-- The spec-level weighted residual sum of squares equals the quantity
`p0 + p1` that `_update_scale` assembles from the cached projections. -/
theorem weightedRSS_eq (s : LMMData n k r) :
    s.weightedRSS
      = (s.yTMy - 2 * ∑ a, s.yTMtX a * s.tbeta a)
        + ∑ a, ∑ b, s.tbeta a * s.tXTMtX a b * s.tbeta b := by
  have expand : s.weightedRSS
      = (∑ a, ∑ b, s.y a * s.Mmat a b * s.y b)
        - (∑ a, ∑ b, s.y a * s.Mmat a b * s.mean b)
        - (∑ a, ∑ b, s.mean a * s.Mmat a b * s.y b)
        + ∑ a, ∑ b, s.mean a * s.Mmat a b * s.mean b := by
    rw [weightedRSS]
    rw [← Finset.sum_sub_distrib, ← Finset.sum_sub_distrib, ← Finset.sum_add_distrib]
    refine Finset.sum_congr rfl fun a _ => ?_
    rw [← Finset.sum_sub_distrib, ← Finset.sum_sub_distrib, ← Finset.sum_add_distrib]
    exact Finset.sum_congr rfl fun b _ => by ring
  rw [expand, quad_y_y, quad_y_mean, quad_symm, quad_y_mean, quad_mean_mean]
  ring

theorem rsolve_fin_one (A : Matrix (Fin 1) (Fin 1) ℝ) (b : Fin 1 → ℝ) :
    rsolve A b = fun _ => (A 0 0)⁻¹ * b 0 := by
  funext i
  rw [rsolve, Matrix.inv_def, Matrix.adjugate_fin_one, Matrix.det_fin_one,
    Ring.inverse_eq_inv, Matrix.smul_mulVec_assoc, Matrix.one_mulVec]
  rw [Fin.eq_zero i]
  rfl

/-- The residual block `t0 + t1 - t2` of `_lml_arbitrary_scale` is the
spec-level weighted residual sum of squares. -/
theorem residual_block_eq (s : LMMData n k r) :
    (∑ i, s.vTQ0 (fun j => s.mean j - s.y j) i / s.D0 i
        * s.vTQ0 (fun j => s.mean j - s.y j) i)
      + (∑ j, (s.mean j - s.y j) * (s.mean j - s.y j)) / s.delta
      - (∑ i, s.vTQ0 (fun j => s.mean j - s.y j) i
          * s.vTQ0 (fun j => s.mean j - s.y j) i) / s.delta
      = s.weightedRSS := by
  have h := quadM_expand s (fun j => s.mean j - s.y j) (fun j => s.mean j - s.y j)
  have hsym : (∑ a, ∑ b, (s.mean a - s.y a) * s.Mmat a b * (s.mean b - s.y b))
      = s.weightedRSS := by
    rw [weightedRSS]
    exact Finset.sum_congr rfl fun a _ => Finset.sum_congr rfl fun b _ => by ring
  calc (∑ i, s.vTQ0 (fun j => s.mean j - s.y j) i / s.D0 i
          * s.vTQ0 (fun j => s.mean j - s.y j) i)
        + (∑ j, (s.mean j - s.y j) * (s.mean j - s.y j)) / s.delta
        - (∑ i, s.vTQ0 (fun j => s.mean j - s.y j) i
            * s.vTQ0 (fun j => s.mean j - s.y j) i) / s.delta
      = (∑ i, s.vTQ0 (fun j => s.mean j - s.y j) i
            * s.vTQ0 (fun j => s.mean j - s.y j) i / s.D0 i)
        + ((∑ a, (s.mean a - s.y a) * (s.mean a - s.y a))
            - ∑ i, s.vTQ0 (fun j => s.mean j - s.y j) i
                * s.vTQ0 (fun j => s.mean j - s.y j) i) / s.delta := by
        rw [sub_div]
        have hA : (∑ i, s.vTQ0 (fun j => s.mean j - s.y j) i / s.D0 i
              * s.vTQ0 (fun j => s.mean j - s.y j) i)
            = ∑ i, s.vTQ0 (fun j => s.mean j - s.y j) i
                * s.vTQ0 (fun j => s.mean j - s.y j) i / s.D0 i :=
          Finset.sum_congr rfl fun i _ => by ring
        rw [hA]
        ring
    _ = ∑ a, ∑ b, (s.mean a - s.y a) * s.Mmat a b * (s.mean b - s.y b) := h.symm
    _ = s.weightedRSS := hsym

/-- The method `_lml_arbitrary_scale` computes, through the cached
projections, exactly the marginal log-likelihood with the weighted residual
sum of squares in place of the optimal-scale constant. -/
theorem lmlArbitraryScale_eq (s : LMMData n k r) :
    s.lmlArbitraryScale
      = (-s.df * log2pi - n * Real.log s.scale - s.logdetD
          - s.weightedRSS / s.scale) / 2 := by
  have h := residual_block_eq s
  simp only [lmlArbitraryScale, vTQ0] at h ⊢
  rw [h]

/-- The method `_update_scale` sets the scale to the weighted residual sum
of squares over the degrees of freedom, floored at `epsilon.small`; in the
short branch the optimal-β flag guarantees the normal equations
`tXTMtX·tbeta = yTMtX` hold, which is the supplied hypothesis. -/
theorem updateScale_eq (s : LMMData n k r)
    (hne : s.optimalBeta = true → s.tXTMtX.mulVec s.tbeta = s.yTMtX) :
    (s.updateScale).scale = max (s.weightedRSS / s.df) epsilonSmall := by
  by_cases hb : s.optimalBeta
  · have heq := hne hb
    have hquad : (∑ a, ∑ b, s.tbeta a * s.tXTMtX a b * s.tbeta b)
        = ∑ a, s.yTMtX a * s.tbeta a := by
      calc (∑ a, ∑ b, s.tbeta a * s.tXTMtX a b * s.tbeta b)
          = ∑ a, s.tbeta a * s.tXTMtX.mulVec s.tbeta a := by
            refine Finset.sum_congr rfl fun a _ => ?_
            rw [Matrix.mulVec, Matrix.dotProduct, Finset.mul_sum]
            exact Finset.sum_congr rfl fun b _ => by ring
        _ = ∑ a, s.yTMtX a * s.tbeta a := by
            rw [heq]
            exact Finset.sum_congr rfl fun a _ => by ring
    have hrss : s.weightedRSS = s.yTMy - ∑ a, s.yTMtX a * s.tbeta a := by
      rw [weightedRSS_eq, hquad]
      ring
    simp only [updateScale, hb, if_true, optimalScaleUsingOptimalBeta]
    rw [hrss]
  · simp only [updateScale, hb, if_false, Bool.false_eq_true]
    rw [weightedRSS_eq]

theorem logdetXX_ok_of_not_restricted (s : LMMData n k r)
    (h : s.restricted = false) : s.logdetXX = Except.ok 0 := by
  rw [logdetXX, h]
  rfl

theorem logdetH_ok_of_not_restricted (s : LMMData n k r)
    (h : s.restricted = false) : s.logdetH = Except.ok 0 := by
  rw [logdetH, h]
  rfl

theorem logdetXX_ok_of_pos (s : LMMData n k r) (h : s.restricted = true)
    (hd : 0 < s.XtX.det) : s.logdetXX = Except.ok (Real.log s.XtX.det) := by
  rw [logdetXX, h]
  simp [hd]

theorem logdetH_ok_of_pos (s : LMMData n k r) (h : s.restricted = true)
    (hd : 0 < s.Hmat.det) : s.logdetH = Except.ok (Real.log s.Hmat.det) := by
  rw [logdetH, h]
  simp [hd]

/-- The lml branch value: optimal-scale or arbitrary-scale base. -/
def lmlBase (s : LMMData n k r) : ℝ :=
  if s.optimalScale then s.lmlOptimalScale else s.lmlArbitraryScale

theorem lml_ok_of_not_restricted (s : LMMData n k r)
    (h : s.restricted = false) : s.lml = Except.ok s.lmlBase := by
  rw [lml, logdetXX_ok_of_not_restricted s h, logdetH_ok_of_not_restricted s h]
  show Except.ok _ = _
  rw [lmlBase]
  norm_num

theorem lml_ok_of_restricted (s : LMMData n k r) (h : s.restricted = true)
    (hXX : 0 < s.XtX.det) (hH : 0 < s.Hmat.det) :
    s.lml = Except.ok
      (s.lmlBase + (Real.log s.XtX.det - Real.log s.Hmat.det) / 2) := by
  rw [lml, logdetXX_ok_of_pos s h hXX, logdetH_ok_of_pos s h hH]
  show Except.ok _ = _
  rw [lmlBase]

theorem lml_error_of_detXX_nonpos (s : LMMData n k r) (h : s.restricted = true)
    (hXX : ¬0 < s.XtX.det) : s.lml = Except.error () := by
  have hx : s.logdetXX = Except.error () := by
    rw [logdetXX, h]
    simp [hXX]
  rw [lml, hx]
  rfl

theorem lml_error_of_detH_nonpos (s : LMMData n k r) (h : s.restricted = true)
    (hH : ¬0 < s.Hmat.det) : s.lml = Except.error () := by
  have hh : s.logdetH = Except.error () := by
    rw [logdetH, h]
    simp [hH]
  rw [lml]
  rcases hx : s.logdetXX with e | a
  · rfl
  · rw [hh]
    rfl

theorem delta_of_stored_one (s : LMMData n k r) (h : s.deltaStored = 1) :
    s.delta = 1 := by
  rw [delta, h, clampDelta_one]

theorem k0_tXTMtX (s : LMMData n 0 r) (hd : s.delta = 1) : s.tXTMtX = s.XtX := by
  funext a b
  simp [tXTMtX, tXTQ0D0iQ0TtX, tXTQ0Q0TtX, hd]

theorem k0_yTMtX (s : LMMData n 0 r) (hd : s.delta = 1) :
    s.yTMtX = fun a => ∑ j, s.y j * s.US j a := by
  funext a
  simp [yTMtX, yTQ0D0iQ0TtX, yTQ0Q0TtX, hd]

theorem k0_yTMy (s : LMMData n 0 r) (hd : s.delta = 1) :
    s.yTMy = ∑ j, s.y j * s.y j := by
  simp [yTMy, yTQ0D0iQ0Ty, yTQ0xQ0Ty, hd]

theorem k0_logdetD (s : LMMData n 0 r) (hd : s.delta = 1) : s.logdetD = 0 := by
  simp [logdetD, hd]

end LMMData

/-- The claimed optimal-scale lml formula of the spec, read literally:
`(-df·log2π - df·log s - log|D| - df)/2` (with `df·log s` where the code
has `n·log s`). -/
def lmlClaimOptimal {n k r : ℕ} (s : LMMData n k r) : ℝ :=
  (-s.df * log2pi - s.df * Real.log s.scale - s.logdetD - s.df) / 2

/-- The REML correction as the spec words it:
`½(log|XᵀX| - log|XᵀD⁻¹X/s|)` when restricted, zero otherwise. -/
def remlClaim {n k r : ℕ} (s : LMMData n k r) : ℝ :=
  if s.restricted then (Real.log s.XtX.det - Real.log s.Hmat.det) / 2 else 0

/-- Covariates matrix of all ones (two samples, one covariate), which is
its own reduced factor `US` under the economic SVD. -/
def oneXmat : Matrix (Fin 2) (Fin 1) ℝ := Matrix.of ![![1], ![1]]

/-- The empty eigenvector block of `economic_qs_zeros` (rank 0). -/
def eQ0 (m : ℕ) : Matrix (Fin m) (Fin 0) ℝ := Matrix.of fun _ i => Fin.elim0 i

/-- The empty eigenvalue block of `economic_qs_zeros` (rank 0). -/
def eS0 : Fin 0 → ℝ := Fin.elim0

/-- Concrete restricted LMM: `y = [0,2]`, `X = ones(2,1)`, `QS = None`. -/
def c1base : LMMData 2 0 1 := LMMData.initLMM false ![0, 2] oneXmat (eQ0 2) eS0 true

/-- The state `c1base` reaches after `value()` brings β and the scale to
their closed-form optima: `tbeta = 1`, `scale = 2`, both flags set. -/
def c1r : LMMData 2 0 1 :=
  ⟨![0, 2], oneXmat, eQ0 2, eS0, 1, 2, fun _ => 1, true, true, true, false, false, true⟩

theorem c1base_stored : c1base.deltaStored = 1 := by
  show clampDelta (if False then 0.5 else 1) = 1
  rw [if_neg (by exact fun h => h)]
  exact clampDelta_one

/-- The intermediate state after `_update_beta` inside `value()`. -/
def c1mid : LMMData 2 0 1 :=
  ⟨![0, 2], oneXmat, eQ0 2, eS0, clampDelta 1, 1, fun _ => 1, true, true, false,
    false, false, true⟩

theorem updateScale_as_record (s : LMMData n k r) :
    s.updateScale = { s with scale := (s.updateScale).scale, optimalScale := true } :=
  rfl

theorem c1mid_stored : c1mid.deltaStored = 1 := clampDelta_one

theorem c1_updateBeta : c1base.updateBeta = c1mid := by
  have hd : c1base.delta = 1 := c1base.delta_of_stored_one c1base_stored
  have hXtX : c1base.XtX 0 0 = 2 := by
    norm_num [LMMData.XtX, c1base, LMMData.initLMM, oneXmat, Fin.sum_univ_two]
  have htX : c1base.tXTMtX = c1base.XtX := c1base.k0_tXTMtX hd
  have hyX : c1base.yTMtX 0 = 2 := by
    rw [c1base.k0_yTMtX hd]
    norm_num [c1base, LMMData.initLMM, oneXmat, Fin.sum_univ_two]
  have hsolve : LMMData.rsolve c1base.tXTMtX c1base.yTMtX = fun _ => 1 := by
    rw [LMMData.rsolve_fin_one]
    funext i
    rw [htX, hXtX, hyX]
    norm_num
  have hob : c1base.optimalBeta = false := rfl
  rw [LMMData.updateBeta, hob]
  rw [hsolve]
  rfl

theorem c1mid_scale : (c1mid.updateScale).scale = 2 := by
  have hd1 : c1mid.delta = 1 := c1mid.delta_of_stored_one c1mid_stored
  have hyy : c1mid.yTMy = 4 := by
    rw [c1mid.k0_yTMy hd1]
    show (∑ j, (![0, 2] : Fin 2 → ℝ) j * ![0, 2] j) = 4
    rw [Fin.sum_univ_two]
    norm_num
  have hyX1 : c1mid.yTMtX 0 = 2 := by
    rw [c1mid.k0_yTMtX hd1]
    show (∑ j, (![0, 2] : Fin 2 → ℝ) j * oneXmat j 0) = 2
    norm_num [oneXmat, Fin.sum_univ_two]
  have hdf : c1mid.df = 1 := by
    norm_num [LMMData.df, c1mid]
  have hopt : c1mid.optimalScaleUsingOptimalBeta = 2 := by
    rw [LMMData.optimalScaleUsingOptimalBeta, hyy, hdf, Fin.sum_univ_one, hyX1]
    show max ((4 - 2 * 1) / 1) epsilonSmall = 2
    rw [max_eq_left]
    · norm_num
    · calc epsilonSmall ≤ 1 := epsilonSmall_le_one
        _ ≤ (4 - 2 * 1) / 1 := by norm_num
  show c1mid.optimalScaleUsingOptimalBeta = 2
  exact hopt

theorem c1_reach : c1base.valueState = c1r := by
  show (c1base.updateBeta).updateScale = c1r
  rw [c1_updateBeta, updateScale_as_record, c1mid_scale]
  ext
  all_goals first | exact c1mid_stored | rfl

/-- Claim C1 as the spec words it fails on the code: at a restricted LMM
whose β and scale are at their closed-form optima (reached by an explicit
`value()` trace from the constructor), the code's `lml()` — which carries
`-n·log s` — differs from the claimed `-df·log s` formula. -/
theorem c1r_delta : c1r.delta = 1 := c1r.delta_of_stored_one rfl

theorem c1r_detXX : c1r.XtX.det = 2 := by
  rw [Matrix.det_fin_one]
  norm_num [LMMData.XtX, c1r, oneXmat, Fin.sum_univ_two]

theorem c1r_detH : c1r.Hmat.det = 1 := by
  rw [Matrix.det_fin_one]
  have hXtX00 : c1r.XtX 0 0 = 2 := by
    norm_num [LMMData.XtX, c1r, oneXmat, Fin.sum_univ_two]
  have hh : c1r.Hmat 0 0 = c1r.tXTMtX 0 0 / c1r.scale := rfl
  rw [hh, c1r.k0_tXTMtX c1r_delta, hXtX00]
  show (2:ℝ) / 2 = 1
  norm_num

theorem C1_counterexample :
    c1base.valueState.optimalBeta = true ∧ c1base.valueState.optimalScale = true ∧
      c1base.valueState.lml
        ≠ Except.ok (lmlClaimOptimal c1base.valueState + remlClaim c1base.valueState) := by
  rw [c1_reach]
  refine ⟨rfl, rfl, ?_⟩
  have hd : c1r.delta = 1 := c1r_delta
  have hdf : c1r.df = 1 := by norm_num [LMMData.df, c1r]
  have hld : c1r.logdetD = 0 := c1r.k0_logdetD hd
  have hdet : c1r.XtX.det = 2 := c1r_detXX
  have hdetH : c1r.Hmat.det = 1 := c1r_detH
  have hlml := c1r.lml_ok_of_restricted rfl (by rw [hdet]; norm_num)
    (by rw [hdetH]; norm_num)
  rw [hlml, hdet, hdetH]
  have hbase : c1r.lmlBase = (-(1:ℝ) * log2pi - 1 - 2 * Real.log 2) / 2 := by
    rw [LMMData.lmlBase, if_pos (show c1r.optimalScale = true from rfl),
      LMMData.lmlOptimalScale, hld, hdf]
    show (-(1:ℝ) * log2pi - 1 - ((2:ℕ):ℝ) * Real.log 2 - 0) / 2 = _
    push_cast
    ring
  have hclaim : lmlClaimOptimal c1r + remlClaim c1r
      = (-(1:ℝ) * log2pi - Real.log 2 - 1) / 2 + Real.log 2 / 2 := by
    rw [lmlClaimOptimal, remlClaim, if_pos (show c1r.restricted = true from rfl),
      hdet, hdetH, hld, hdf]
    show (-(1:ℝ) * log2pi - 1 * Real.log 2 - 0 - 1) / 2
        + (Real.log 2 - Real.log 1) / 2 = _
    rw [Real.log_one]
    ring
  rw [hbase, hclaim]
  intro h
  have heq := Except.ok.inj h
  rw [Real.log_one] at heq
  have hpos : 0 < Real.log 2 := Real.log_pos (by norm_num)
  linarith

/-- Amended C1: for every LMM whose determinant checks pass, `lml()` is
`(-df·log2π - df - n·log s - log|D|)/2` at the closed-form optima (the
spec's `df·log s` corrected to `n·log s`), the constant `-df` being
replaced by the weighted-residual term `-wRSS/s` when the scale is held at
an arbitrary value, plus the REML correction exactly when restricted. -/
theorem C1_lml_amended {n k r : ℕ} (s : LMMData n k r)
    (hXX : s.restricted = true → 0 < s.XtX.det)
    (hH : s.restricted = true → 0 < s.Hmat.det) :
    s.lml = Except.ok
      ((if s.optimalScale then
          (-s.df * log2pi - s.df - (n:ℝ) * Real.log s.scale - s.logdetD) / 2
        else
          (-s.df * log2pi - (n:ℝ) * Real.log s.scale - s.logdetD
            - s.weightedRSS / s.scale) / 2)
        + (if s.restricted then (Real.log s.XtX.det - Real.log s.Hmat.det) / 2
            else 0)) := by
  have hbase : s.lmlBase
      = (if s.optimalScale then
          (-s.df * log2pi - s.df - (n:ℝ) * Real.log s.scale - s.logdetD) / 2
        else
          (-s.df * log2pi - (n:ℝ) * Real.log s.scale - s.logdetD
            - s.weightedRSS / s.scale) / 2) := by
    rw [LMMData.lmlBase]
    by_cases hos : s.optimalScale = true
    · rw [if_pos hos, if_pos hos, LMMData.lmlOptimalScale]
    · rw [if_neg hos, if_neg hos, s.lmlArbitraryScale_eq]
  cases hres : s.restricted with
  | false =>
    rw [s.lml_ok_of_not_restricted hres, hbase]
    norm_num
  | true =>
    rw [s.lml_ok_of_restricted hres (hXX hres) (hH hres), hbase]
    norm_num

/-- Witness for the amended C1 at the concrete restricted instance. -/
theorem C1_lml_amended_witness :
    c1r.lml = Except.ok
      ((if c1r.optimalScale then
          (-c1r.df * log2pi - c1r.df - ((2:ℕ):ℝ) * Real.log c1r.scale
            - c1r.logdetD) / 2
        else
          (-c1r.df * log2pi - ((2:ℕ):ℝ) * Real.log c1r.scale - c1r.logdetD
            - c1r.weightedRSS / c1r.scale) / 2)
        + (if c1r.restricted then (Real.log c1r.XtX.det - Real.log c1r.Hmat.det) / 2
            else 0)) :=
  C1_lml_amended c1r (fun _ => by rw [c1r_detXX]; norm_num)
    (fun _ => by rw [c1r_detH]; norm_num)

/-- Concrete unrestricted LMM with a perfect fit: `y = [1,1]`,
`X = ones(2,1)`, `QS = None`. -/
def c2base : LMMData 2 0 1 := LMMData.initLMM false ![1, 1] oneXmat (eQ0 2) eS0 false

/-- The state `c2base` reaches after `_update_beta`: `tbeta = 1`, and the
residual `y - X·β` is exactly zero. -/
def c2r : LMMData 2 0 1 :=
  ⟨![1, 1], oneXmat, eQ0 2, eS0, clampDelta 1, 1, fun _ => 1, false, true, false,
    false, false, true⟩

theorem c2r_delta : c2r.delta = 1 := c2r.delta_of_stored_one clampDelta_one

theorem c2_updateBeta : c2base.updateBeta = c2r := by
  have hd : c2base.delta = 1 :=
    c2base.delta_of_stored_one (by exact clampDelta_one)
  have hXtX : c2base.XtX 0 0 = 2 := by
    norm_num [LMMData.XtX, c2base, LMMData.initLMM, oneXmat, Fin.sum_univ_two]
  have htX : c2base.tXTMtX = c2base.XtX := c2base.k0_tXTMtX hd
  have hyX : c2base.yTMtX 0 = 2 := by
    rw [c2base.k0_yTMtX hd]
    norm_num [c2base, LMMData.initLMM, oneXmat, Fin.sum_univ_two]
  have hsolve : LMMData.rsolve c2base.tXTMtX c2base.yTMtX = fun _ => 1 := by
    rw [LMMData.rsolve_fin_one]
    funext i
    rw [htX, hXtX, hyX]
    norm_num
  have hob : c2base.optimalBeta = false := rfl
  rw [LMMData.updateBeta, hob]
  rw [hsolve]
  rfl

theorem c2r_yTMy : c2r.yTMy = 2 := by
  rw [c2r.k0_yTMy c2r_delta]
  show (∑ j, (![1, 1] : Fin 2 → ℝ) j * ![1, 1] j) = 2
  rw [Fin.sum_univ_two]
  norm_num

theorem c2r_yTMtX : c2r.yTMtX 0 = 2 := by
  rw [c2r.k0_yTMtX c2r_delta]
  show (∑ j, (![1, 1] : Fin 2 → ℝ) j * oneXmat j 0) = 2
  norm_num [oneXmat, Fin.sum_univ_two]

theorem c2r_tXTMtX : c2r.tXTMtX 0 0 = 2 := by
  rw [c2r.k0_tXTMtX c2r_delta]
  norm_num [LMMData.XtX, c2r, oneXmat, Fin.sum_univ_two]

theorem c2r_df : c2r.df = 2 := by
  norm_num [LMMData.df, c2r]

theorem c2r_wrss : c2r.weightedRSS = 0 := by
  rw [c2r.weightedRSS_eq, c2r_yTMy, Fin.sum_univ_one, Fin.sum_univ_one,
    Fin.sum_univ_one, c2r_yTMtX, c2r_tXTMtX]
  show 2 - 2 * (2 * 1) + 1 * 2 * 1 = 0
  norm_num

/-- Claim C2 read literally fails on the code: at a perfect fit the
weighted residual sum of squares is zero, yet `_update_scale` stores the
floor `epsilon.small`, not `wRSS/df = 0`. -/
theorem C2_counterexample :
    (c2base.updateBeta.updateScale).scale
      ≠ c2base.updateBeta.weightedRSS / c2base.updateBeta.df := by
  rw [c2_updateBeta]
  have hlhs : (c2r.updateScale).scale = epsilonSmall := by
    show c2r.optimalScaleUsingOptimalBeta = epsilonSmall
    rw [LMMData.optimalScaleUsingOptimalBeta, c2r_yTMy, c2r_df, Fin.sum_univ_one,
      c2r_yTMtX]
    have h0 : ((2:ℝ) - 2 * c2r.tbeta 0) / 2 = 0 := by
      show ((2:ℝ) - 2 * 1) / 2 = 0
      norm_num
    rw [h0]
    exact max_eq_right epsilonSmall_pos.le
  rw [hlhs, c2r_wrss, c2r_df]
  norm_num
  exact epsilonSmall_pos.ne'

/-- Amended C2: the closed-form scale update sets the scale to the
D⁻¹-weighted residual sum of squares over the degrees of freedom —
`df = n` for ML and `n - rank` for REML — floored at `epsilon.small`;
the optimal-β branch is characterized by the normal equations. -/
theorem C2_scale_update_amended {n k r : ℕ} (s : LMMData n k r)
    (hfix : s.fixScale = false)
    (hne : s.optimalBeta = true → s.tXTMtX.mulVec s.tbeta = s.yTMtX) :
    (s.updateScale).scale = max (s.weightedRSS / s.df) epsilonSmall
      ∧ (s.updateScale).optimalScale = true
      ∧ s.df = (if s.restricted = true then (n:ℝ) - r else (n:ℝ)) :=
  ⟨s.updateScale_eq hne, rfl, rfl⟩

/-- Witness for the amended C2 at the concrete perfect-fit instance. -/
theorem C2_scale_update_amended_witness :
    (c2r.updateScale).scale = max (c2r.weightedRSS / c2r.df) epsilonSmall
      ∧ (c2r.updateScale).optimalScale = true
      ∧ c2r.df = (if c2r.restricted = true then ((2:ℕ):ℝ) - (1:ℕ) else ((2:ℕ):ℝ)) :=
  C2_scale_update_amended c2r rfl
    (fun _ => by
      funext i
      rw [Fin.eq_zero i]
      show (∑ j, c2r.tXTMtX 0 j * c2r.tbeta j) = c2r.yTMtX 0
      rw [Fin.sum_univ_one, c2r_tXTMtX, c2r_yTMtX]
      show (2:ℝ) * 1 = 2
      norm_num)

theorem updateBeta_fixScale {n k r : ℕ} (s : LMMData n k r) :
    (s.updateBeta).fixScale = s.fixScale := by
  rw [LMMData.updateBeta]
  by_cases h : s.optimalBeta = true <;> simp [h]

theorem setDelta_fixScale {n k r : ℕ} (s : LMMData n k r) (d : ℝ) :
    (s.setDelta d).fixScale = s.fixScale := rfl

theorem updateScale_scale_ge {n k r : ℕ} (s : LMMData n k r) :
    epsilonSmall ≤ (s.updateScale).scale := by
  by_cases h : s.optimalBeta = true
  · simp only [LMMData.updateScale, h, if_true, LMMData.optimalScaleUsingOptimalBeta]
    exact le_max_right _ _
  · simp only [LMMData.updateScale, h, if_false]
    exact le_max_right _ _

/-- Claim C10: whenever `fit()` or `value()` recomputes the scale (scale
not user-fixed), the stored scale is floored at `epsilon.small`, hence
strictly positive even at a perfect fit. -/
theorem C10_scale_floor {n k r : ℕ} (s : LMMData n k r) (d : ℝ)
    (hfix : s.fixScale = false) :
    epsilonSmall ≤ (s.fit d).scale ∧ 0 < (s.fit d).scale
      ∧ epsilonSmall ≤ (s.valueState).scale ∧ 0 < (s.valueState).scale
      ∧ epsilonSmall ≤ (s.updateScale).scale ∧ 0 < (s.updateScale).scale := by
  have hfit : epsilonSmall ≤ (s.fit d).scale := by
    rw [LMMData.fit]
    set s0 := if s.logisticFixed then s else s.setDelta d with hs0
    have e0 : s0.fixScale = false := by
      rw [hs0]
      by_cases hl : s.logisticFixed = true <;> simp [hl, LMMData.setDelta, hfix]
    set s1 := if s0.fixBeta then s0 else s0.updateBeta with hs1
    have e1 : s1.fixScale = false := by
      rw [hs1]
      by_cases hb : s0.fixBeta = true <;> simp [hb, updateBeta_fixScale, e0]
    rw [if_neg (by rw [e1]; exact Bool.false_ne_true)]
    exact updateScale_scale_ge s1
  have hval : epsilonSmall ≤ (s.valueState).scale := by
    rw [LMMData.valueState]
    set s1 := if s.fixBeta then s else s.updateBeta with hs1
    have e1 : s1.fixScale = false := by
      rw [hs1]
      by_cases hb : s.fixBeta = true <;> simp [hb, updateBeta_fixScale, hfix]
    rw [if_neg (by rw [e1]; exact Bool.false_ne_true)]
    exact updateScale_scale_ge s1
  refine ⟨hfit, lt_of_lt_of_le epsilonSmall_pos hfit, hval,
    lt_of_lt_of_le epsilonSmall_pos hval, updateScale_scale_ge s,
    lt_of_lt_of_le epsilonSmall_pos (updateScale_scale_ge s)⟩

/-- Witness for C10 at the concrete perfect-fit instance (where the floor
actually engages: the residual is zero and the stored scale is
`epsilon.small`). -/
theorem C10_scale_floor_witness :
    epsilonSmall ≤ (c2r.fit 0.5).scale ∧ 0 < (c2r.fit 0.5).scale
      ∧ epsilonSmall ≤ (c2r.valueState).scale ∧ 0 < (c2r.valueState).scale
      ∧ epsilonSmall ≤ (c2r.updateScale).scale ∧ 0 < (c2r.updateScale).scale :=
  C10_scale_floor c2r 0.5 rfl

/-- Claim C3: with `restricted=True`, `lml()` adds the REML correction
`½(log|XᵀX| - log|XᵀD⁻¹X/s|)` computed from the reduced factorization and
raises when either determinant tests non-positive by sign check; with
`restricted=False` the correction is zero and no check is performed (both
log-determinant helpers return 0 whatever the determinants are). -/
theorem C3_reml_sign_check {n k r : ℕ} (s : LMMData n k r) :
    (s.restricted = true →
        (0 < s.XtX.det → 0 < s.Hmat.det →
            s.lml = Except.ok (s.lmlBase
              + (Real.log s.XtX.det - Real.log s.Hmat.det) / 2))
          ∧ (¬0 < s.XtX.det → s.lml = Except.error ())
          ∧ (0 < s.XtX.det → ¬0 < s.Hmat.det → s.lml = Except.error ()))
      ∧ (s.restricted = false →
          s.lml = Except.ok s.lmlBase
            ∧ s.logdetXX = Except.ok 0 ∧ s.logdetH = Except.ok 0) := by
  constructor
  · intro hres
    exact ⟨fun h1 h2 => s.lml_ok_of_restricted hres h1 h2,
      fun h1 => s.lml_error_of_detXX_nonpos hres h1,
      fun _ h2 => s.lml_error_of_detH_nonpos hres h2⟩
  · intro hres
    exact ⟨s.lml_ok_of_not_restricted hres,
      s.logdetXX_ok_of_not_restricted hres, s.logdetH_ok_of_not_restricted hres⟩

theorem updateBeta_deltaStored {n k r : ℕ} (s : LMMData n k r) :
    (s.updateBeta).deltaStored = s.deltaStored := by
  rw [LMMData.updateBeta]
  by_cases h : s.optimalBeta = true <;> simp [h]

theorem updateBeta_logisticFixed {n k r : ℕ} (s : LMMData n k r) :
    (s.updateBeta).logisticFixed = s.logisticFixed := by
  rw [LMMData.updateBeta]
  by_cases h : s.optimalBeta = true <;> simp [h]

theorem updateScale_deltaStored {n k r : ℕ} (s : LMMData n k r) :
    (s.updateScale).deltaStored = s.deltaStored := rfl

theorem updateScale_logisticFixed {n k r : ℕ} (s : LMMData n k r) :
    (s.updateScale).logisticFixed = s.logisticFixed := rfl

theorem fit_deltaStored_of_fixed {n k r : ℕ} (s : LMMData n k r) (d : ℝ)
    (h : s.logisticFixed = true) :
    (s.fit d).deltaStored = s.deltaStored ∧ (s.fit d).logisticFixed = true := by
  rw [LMMData.fit, if_pos h]
  set s1 := if s.fixBeta then s else s.updateBeta with hs1
  have e1 : s1.deltaStored = s.deltaStored ∧ s1.logisticFixed = true := by
    rw [hs1]
    by_cases hb : s.fixBeta = true <;>
      simp [hb, updateBeta_deltaStored, updateBeta_logisticFixed, h]
  by_cases hc : s1.fixScale = true <;>
    simp [hc, updateScale_deltaStored, updateScale_logisticFixed, e1.1, e1.2]

theorem valueState_deltaStored {n k r : ℕ} (s : LMMData n k r) :
    (s.valueState).deltaStored = s.deltaStored
      ∧ (s.valueState).logisticFixed = s.logisticFixed := by
  rw [LMMData.valueState]
  set s1 := if s.fixBeta then s else s.updateBeta with hs1
  have e1 : s1.deltaStored = s.deltaStored ∧ s1.logisticFixed = s.logisticFixed := by
    rw [hs1]
    by_cases hb : s.fixBeta = true <;>
      simp [hb, updateBeta_deltaStored, updateBeta_logisticFixed]
  by_cases hc : s1.fixScale = true <;>
    simp [hc, updateScale_deltaStored, updateScale_logisticFixed, e1.1, e1.2]

/-- Claim C6: constructing with `QS=None` (rank-0 decomposition,
`economic_qs_zeros`) forces `delta = 1`, fixes the logistic parameter, and
`delta` stays 1 across `fit()` and the other state-mutating operations;
the prior covariance is then the pure i.i.d. `scale·I`. -/
theorem C6_qs_none_delta_fixed {n r : ℕ} (y : Fin n → ℝ)
    (US : Matrix (Fin n) (Fin r) ℝ) (restricted : Bool) :
    (LMMData.initLMM false y US (eQ0 n) eS0 restricted).delta = 1
      ∧ (LMMData.initLMM false y US (eQ0 n) eS0 restricted).logisticFixed = true
      ∧ (∀ dopt : ℝ,
          ((LMMData.initLMM false y US (eQ0 n) eS0 restricted).fit dopt).delta = 1
            ∧ ((LMMData.initLMM false y US (eQ0 n) eS0 restricted).fit
                dopt).logisticFixed = true)
      ∧ ((LMMData.initLMM false y US (eQ0 n) eS0 restricted).valueState).delta = 1
      ∧ (∀ a b, (LMMData.initLMM false y US (eQ0 n) eS0 restricted).covariance a b
          = if a = b
            then (LMMData.initLMM false y US (eQ0 n) eS0 restricted).scale else 0) := by
  set s := LMMData.initLMM false y US (eQ0 n) eS0 restricted with hs
  have hstored : s.deltaStored = 1 := by
    rw [hs]
    show clampDelta (if false = true then 0.5 else 1) = 1
    rw [if_neg Bool.false_ne_true]
    exact clampDelta_one
  have hlf : s.logisticFixed = true := rfl
  have hdelta : s.delta = 1 := s.delta_of_stored_one hstored
  refine ⟨hdelta, hlf, ?_, ?_, ?_⟩
  · intro dopt
    have hf := fit_deltaStored_of_fixed s dopt hlf
    exact ⟨(s.fit dopt).delta_of_stored_one (hf.1.trans hstored), hf.2⟩
  · exact (s.valueState).delta_of_stored_one ((valueState_deltaStored s).1.trans hstored)
  · intro a b
    have hz : ∀ i : Fin 0, False := fun i => i.elim0
    rw [LMMData.covariance, Matrix.of_apply]
    rw [show (∑ i, s.Q0 a i * (s.v0 * s.S0 i) * s.Q0 b i) = 0 from
      Finset.sum_of_isEmpty _]
    rw [LMMData.v1, hdelta, mul_one, zero_add]

theorem epsilonTiny_le_half : epsilonTiny ≤ 1 / 2 := by
  unfold epsilonTiny
  rw [show (1:ℝ) / 2 = (2⁻¹ : ℝ) by norm_num, inv_le_inv₀ (by positivity) (by norm_num)]
  calc (2:ℝ) = 2 ^ (1:ℕ) := (pow_one 2).symm
    _ ≤ 2 ^ (1022:ℕ) := pow_le_pow_right₀ (by norm_num) (by norm_num)

theorem clampDelta_half : clampDelta (1 / 2) = 1 / 2 := by
  unfold clampDelta
  rw [max_eq_left epsilonTiny_le_half, min_eq_left (by norm_num)]

/-- Eigenvector block `Q0 = [1,0]ᵀ` of a rank-1 decomposition of
`K = diag(1,0)`. -/
def q1mat : Matrix (Fin 2) (Fin 1) ℝ := Matrix.of ![![1], ![0]]

/-- Concrete unrestricted LMM with a genuine rank-1 decomposition:
`y = [0,2]`, `X = ones(2,1)`, `Q0 = [1,0]ᵀ`, `S0 = [1]`. -/
def c8base : LMMData 2 1 1 := LMMData.initLMM true ![0, 2] oneXmat q1mat ![1] false

/-- The state after the staleing mutation `delta := 1/2`. -/
def c8s : LMMData 2 1 1 := c8base.setDelta (1 / 2)

theorem c8_quantities (s : LMMData 2 1 1) (hy : s.y = ![0, 2])
    (hUS : s.US = oneXmat) (hQ : s.Q0 = q1mat) (hS : s.S0 = ![1])
    (hst : s.deltaStored = clampDelta (1 / 2)) (hr : s.restricted = false) :
    s.delta = 1 / 2 ∧ s.tXTMtX 0 0 = 3 ∧ s.yTMtX 0 = 4 ∧ s.yTMy = 8
      ∧ s.logdetD = -Real.log 2 ∧ s.df = 2 := by
  have hd : s.delta = 1 / 2 := by
    rw [LMMData.delta, hst, clampDelta_half, clampDelta_half]
  have hyTQ0 : s.yTQ0 = fun _ => 0 := by
    funext i
    rw [LMMData.yTQ0, Fin.sum_univ_two, hy, hQ, Fin.eq_zero i]
    norm_num [q1mat]
  have htXTQ0 : s.tXTQ0 0 0 = 1 := by
    rw [LMMData.tXTQ0, Matrix.of_apply, Fin.sum_univ_two, hUS, hQ]
    norm_num [oneXmat, q1mat]
  have hD0 : s.D0 = fun _ => 1 := by
    funext i
    rw [LMMData.D0, hd, hS, Fin.eq_zero i]
    norm_num
  have hXtX : s.XtX 0 0 = 2 := by
    rw [LMMData.XtX, Matrix.of_apply, Fin.sum_univ_two, hUS]
    norm_num [oneXmat]
  have htX : s.tXTMtX 0 0 = 3 := by
    rw [LMMData.tXTMtX, Matrix.of_apply, LMMData.tXTQ0D0iQ0TtX, Matrix.of_apply,
      LMMData.tXTQ0Q0TtX, Matrix.of_apply, Fin.sum_univ_one, Fin.sum_univ_one,
      htXTQ0, hD0, hXtX, hd]
    norm_num
  have hyX : s.yTMtX 0 = 4 := by
    rw [LMMData.yTMtX, LMMData.yTQ0D0iQ0TtX, LMMData.yTQ0Q0TtX, Fin.sum_univ_one,
      Fin.sum_univ_one, hyTQ0, hD0, htXTQ0, hd, Fin.sum_univ_two, hy, hUS]
    norm_num [oneXmat]
  have hyy : s.yTMy = 8 := by
    rw [LMMData.yTMy, LMMData.yTQ0D0iQ0Ty, Fin.sum_univ_one, Fin.sum_univ_one,
      LMMData.yTQ0xQ0Ty, hyTQ0, hD0, hd, Fin.sum_univ_two, hy]
    norm_num
  have hld : s.logdetD = -Real.log 2 := by
    rw [LMMData.logdetD, Fin.sum_univ_one, hd, hS]
    show Real.log ((1 - 1 / 2) * (1:ℝ) + 1 / 2) + ((2:ℕ) - (1:ℕ)) * Real.log (1 / 2)
        = -Real.log 2
    rw [show ((1:ℝ) - 1 / 2) * 1 + 1 / 2 = 1 by norm_num, Real.log_one,
      show (1:ℝ) / 2 = 2⁻¹ by norm_num, Real.log_inv]
    push_cast
    ring
  have hdf : s.df = 2 := by
    rw [LMMData.df, hr]
    norm_num
  exact ⟨hd, htX, hyX, hyy, hld, hdf⟩

/-- The state after `_update_beta` inside `value()` on `c8s`. -/
def c8mid : LMMData 2 1 1 :=
  ⟨![0, 2], oneXmat, q1mat, ![1], clampDelta (1 / 2), 1, fun _ => 4 / 3, false, true,
    false, false, false, false⟩

/-- The state after the full `value()` refit of `c8s`. -/
def c8fin : LMMData 2 1 1 :=
  ⟨![0, 2], oneXmat, q1mat, ![1], clampDelta (1 / 2), 4 / 3, fun _ => 4 / 3, false,
    true, true, false, false, false⟩

theorem c8s_read : c8s.lml = Except.ok ((-2 * log2pi + Real.log 2 - 8) / 2) := by
  obtain ⟨hd, htX, hyX, hyy, hld, hdf⟩ := c8_quantities c8s rfl rfl rfl rfl rfl rfl
  have htb : c8s.tbeta = fun _ => 0 := rfl
  have hwrss : c8s.weightedRSS = 8 := by
    rw [c8s.weightedRSS_eq, hyy, htb]
    simp
  rw [c8s.lml_ok_of_not_restricted rfl, LMMData.lmlBase,
    if_neg (show ¬c8s.optimalScale = true from Bool.false_ne_true),
    c8s.lmlArbitraryScale_eq, hwrss, hld, hdf]
  have hsc : c8s.scale = 1 := rfl
  rw [hsc, Real.log_one]
  refine congrArg Except.ok ?_
  push_cast
  ring

theorem c8_updateBeta : c8s.updateBeta = c8mid := by
  obtain ⟨hd, htX, hyX, hyy, hld, hdf⟩ := c8_quantities c8s rfl rfl rfl rfl rfl rfl
  have hsolve : LMMData.rsolve c8s.tXTMtX c8s.yTMtX = fun _ => 4 / 3 := by
    rw [LMMData.rsolve_fin_one]
    funext i
    rw [htX, hyX]
    norm_num
  have hob : c8s.optimalBeta = false := rfl
  rw [LMMData.updateBeta, hob]
  rw [hsolve]
  rfl

theorem c8_refit : c8s.valueState = c8fin := by
  obtain ⟨hd, htX, hyX, hyy, hld, hdf⟩ :=
    c8_quantities c8mid rfl rfl rfl rfl rfl rfl
  have hscale : (c8mid.updateScale).scale = 4 / 3 := by
    show c8mid.optimalScaleUsingOptimalBeta = 4 / 3
    rw [LMMData.optimalScaleUsingOptimalBeta, hyy, hdf, Fin.sum_univ_one, hyX]
    have htb : c8mid.tbeta 0 = 4 / 3 := rfl
    rw [htb, show ((8:ℝ) - 4 * (4 / 3)) / 2 = 4 / 3 by norm_num]
    exact max_eq_left (le_trans epsilonSmall_le_one (by norm_num))
  show (c8s.updateBeta).updateScale = c8fin
  rw [c8_updateBeta, updateScale_as_record, hscale]
  rfl

theorem c8s_refit_lml :
    c8s.valueLml
      = Except.ok ((-2 * log2pi - 2 - 2 * Real.log (4 / 3) + Real.log 2) / 2) := by
  obtain ⟨hd, htX, hyX, hyy, hld, hdf⟩ :=
    c8_quantities c8fin rfl rfl rfl rfl rfl rfl
  rw [LMMData.valueLml, c8_refit, c8fin.lml_ok_of_not_restricted rfl,
    LMMData.lmlBase, if_pos (show c8fin.optimalScale = true from rfl),
    LMMData.lmlOptimalScale, hld, hdf]
  have hsc : c8fin.scale = 4 / 3 := rfl
  rw [hsc]
  refine congrArg Except.ok ?_
  push_cast
  ring

/-- Claim C8 fails on the code: after a δ mutation stales the closed-form
quantities, a plain `lml()` read (which does not recompute β or the scale)
differs from the value `value()` produces after the lazy refit. -/
theorem C8_counterexample : c8s.lml ≠ c8s.valueLml := by
  rw [c8s_read, c8s_refit_lml]
  intro h
  have heq := Except.ok.inj h
  have hlog : Real.log (4 / 3) ≤ 4 / 3 - 1 :=
    Real.log_le_sub_one_of_pos (by norm_num)
  linarith

/-- Amended C8: a δ mutation clears the optimal-β/optimal-scale flags and
leaves the stored β and scale in place; a subsequent plain `lml()` read
does not recompute them — it evaluates the arbitrary-scale expression at
the stored values — while `value()` is the call that triggers the
closed-form recomputation (`_update_beta` then `_update_scale`) before
returning `lml()`. -/
theorem C8_lazy_amended {n k r : ℕ} (s : LMMData n k r) (d : ℝ)
    (hres : s.restricted = false) (hfb : s.fixBeta = false)
    (hfs : s.fixScale = false) :
    (s.setDelta d).optimalBeta = false
      ∧ (s.setDelta d).optimalScale = false
      ∧ (s.setDelta d).tbeta = s.tbeta
      ∧ (s.setDelta d).scale = s.scale
      ∧ (s.setDelta d).lml = Except.ok ((s.setDelta d).lmlArbitraryScale)
      ∧ (s.setDelta d).valueLml = (((s.setDelta d).updateBeta).updateScale).lml := by
  refine ⟨rfl, rfl, rfl, rfl, ?_, ?_⟩
  · rw [(s.setDelta d).lml_ok_of_not_restricted hres, LMMData.lmlBase,
      if_neg (show ¬(s.setDelta d).optimalScale = true from Bool.false_ne_true)]
  · rw [LMMData.valueLml, LMMData.valueState,
      if_neg (show ¬(s.setDelta d).fixBeta = true by rw [LMMData.setDelta]; simp [hfb])]
    rw [if_neg (show ¬((s.setDelta d).updateBeta).fixScale = true by
      rw [updateBeta_fixScale, LMMData.setDelta]; simp [hfs])]

/-- Witness for the amended C8 at the concrete staled instance. -/
theorem C8_lazy_amended_witness :
    (c8base.setDelta (1 / 2)).optimalBeta = false
      ∧ (c8base.setDelta (1 / 2)).optimalScale = false
      ∧ (c8base.setDelta (1 / 2)).tbeta = c8base.tbeta
      ∧ (c8base.setDelta (1 / 2)).scale = c8base.scale
      ∧ (c8base.setDelta (1 / 2)).lml
          = Except.ok ((c8base.setDelta (1 / 2)).lmlArbitraryScale)
      ∧ (c8base.setDelta (1 / 2)).valueLml
          = (((c8base.setDelta (1 / 2)).updateBeta).updateScale).lml :=
  C8_lazy_amended c8base (1 / 2) rfl rfl rfl

namespace Scan

/-- The `_safe_log` helper of `_scan.py`: `log(clip(x, epsilon.small, inf))`. -/
def safeLog (x : ℝ) : ℝ := Real.log (max x epsilonSmall)

/-- One diagonal block of the rotated covariance in `FastScanner.__init__`:
an eigenvector block `Q` of `QS[0]` paired with its entries of the
diagonal `D` (`S0 + v` for the rank-`k` block, the constant `v` for the
null-space block). -/
structure ScanBlock (n : ℕ) where
  k : ℕ
  Q : Fin n → Fin k → ℝ
  D : Fin k → ℝ

/-- The block list `FastScanner.__init__` builds from
`QS = ((Q0, Q1), S0)` and the variance `v`: the source keeps `D`, `yTQ`,
`XTQ` as parallel per-block lists guarded by `QS[1].size > 0`,
`QS[1].size < n` and `Q.size > 0` — conditions that coincide for `n > 0` —
so the embedding packages each block's `Q` and `D` together. -/
def mkBlocks {n : ℕ} (k : ℕ) (Q0 : Fin n → Fin k → ℝ)
    (Q1 : Fin n → Fin (n - k) → ℝ) (S0 : Fin k → ℝ) (v : ℝ) :
    List (ScanBlock n) :=
  (if 0 < k then [⟨k, Q0, fun i => S0 i + v⟩] else [])
    ++ (if k < n then [⟨n - k, Q1, fun _ => v⟩] else [])

/-- State of a `FastScanner` (`glimix_core/lmm/_scan.py`): the block list,
the outcome, the covariates and the optional user-fixed scale
(`set_scale`/`unset_scale`). -/
structure Scanner (n c : ℕ) where
  blocks : List (ScanBlock n)
  y : Fin n → ℝ
  X : Fin n → Fin c → ℝ
  scaleOpt : Option ℝ

variable {n c p : ℕ}

/-- The blocks that survive the `D.min() > 0` filter applied to the
cached lists (`yTQDi`, `XTQDi`, `yTBy`, `MTBM`, …).  The source zips
those filtered lists against the unfiltered `XTQ`/`MTQ` lists; whenever
the dropped blocks form a suffix — always the case for `S0 ≥ 0`, since
`min(S0+v) ≤ 0` forces `v ≤ 0` and drops the null block too — that zip
pairs each surviving block with its own projections, which is what this
per-block packaging expresses. -/
def Scanner.posBlocks (sc : Scanner n c) : List (ScanBlock n) :=
  sc.blocks.filter fun b => decide (∀ i, 0 < b.D i)

/-- Per-block projection `yᵀQ`. -/
def yTQ (sc : Scanner n c) (b : ScanBlock n) : Fin b.k → ℝ :=
  fun i => ∑ a, sc.y a * b.Q a i

/-- Per-block projection `XᵀQ`. -/
def XTQ (sc : Scanner n c) (b : ScanBlock n) : Fin c → Fin b.k → ℝ :=
  fun x i => ∑ a, sc.X a x * b.Q a i

/-- Per-block `yᵀQ/D`. -/
def yTQDi (sc : Scanner n c) (b : ScanBlock n) : Fin b.k → ℝ :=
  fun i => yTQ sc b i / b.D i

/-- Per-block `XᵀQ/D`. -/
def XTQDi (sc : Scanner n c) (b : ScanBlock n) : Fin c → Fin b.k → ℝ :=
  fun x i => XTQ sc b x i / b.D i

/-- The cached scalar `yTBy = Σ_b Σ_i (yᵀQ)²/D`. -/
def yTBy (sc : Scanner n c) : ℝ :=
  (sc.posBlocks.map fun b => ∑ i, yTQ sc b i * yTQ sc b i / b.D i).sum

/-- The cached per-block vector `yTBX = (yᵀQ/D)(XᵀQ)ᵀ`. -/
def yTBX (sc : Scanner n c) (b : ScanBlock n) : Fin c → ℝ :=
  fun x => ∑ i, yTQDi sc b i * XTQ sc b x i

/-- The per-block baseline Gram block `XTBX = (XᵀQ/D)(XᵀQ)ᵀ` written into
the preallocated buffer at construction. -/
def XTBXblock (sc : Scanner n c) (b : ScanBlock n) : Fin c → Fin c → ℝ :=
  fun x x' => ∑ i, XTQDi sc b x i * XTQ sc b x' i

/-- Per-block candidate projection `MᵀQ` for a candidate matrix `M`. -/
def MTQ (sc : Scanner n c) (b : ScanBlock n) (M : Fin n → Fin p → ℝ) :
    Fin p → Fin b.k → ℝ :=
  fun j i => ∑ a, M a j * b.Q a i

/-- Per-block `yTBM = (yᵀQ/D)(MᵀQ)ᵀ`. -/
def yTBM (sc : Scanner n c) (b : ScanBlock n) (M : Fin n → Fin p → ℝ) :
    Fin p → ℝ :=
  fun j => ∑ i, yTQDi sc b i * MTQ sc b M j i

/-- Per-block `XTBM = (XᵀQ/D)(MᵀQ)ᵀ`. -/
def XTBM (sc : Scanner n c) (b : ScanBlock n) (M : Fin n → Fin p → ℝ) :
    Fin c → Fin p → ℝ :=
  fun x j => ∑ i, XTQDi sc b x i * MTQ sc b M j i

/-- Per-block `MTBM = Σ_i (MᵀQ)ᵢ/Dᵢ·(MᵀQ)ᵢ` (one scalar per candidate). -/
def MTBM (sc : Scanner n c) (b : ScanBlock n) (M : Fin n → Fin p → ℝ) :
    Fin p → ℝ :=
  fun j => ∑ i, MTQ sc b M j i / b.D i * MTQ sc b M j i

/-- The cached `_static_lml = -n·log2π - n - Σ log(D)` (safe-logged, over
all blocks of the unfiltered `D` list). -/
def staticLml (sc : Scanner n c) : ℝ :=
  -(n : ℝ) * log2pi - n - (sc.blocks.map fun b => ∑ i, safeLog (b.D i)).sum

/-- One preallocated bordered buffer pair of `FastScanner`: the `_ETBE`
matrix (`(c+1)×(c+1)`) and the `_yTBE` vector (`c+1`) of one block. -/
@[ext]
structure BorderBufs (c : ℕ) where
  E : Fin (c + 1) → Fin (c + 1) → ℝ
  yv : Fin (c + 1) → ℝ

/-- The `_yTBE.set_yTBM` in-place write: overwrite the last entry. -/
def setYTBM (v : Fin (c + 1) → ℝ) (x : ℝ) : Fin (c + 1) → ℝ :=
  fun i => if i = Fin.last c then x else v i

/-- The `_ETBE.set_XTBM` in-place write: overwrite the last column and,
symmetrically, the last row (`copyto(self.MTBX, XTBM.T)`), leaving the
corner to `set_MTBM`. -/
def setXTBM (E : Fin (c + 1) → Fin (c + 1) → ℝ) (xb : Fin c → ℝ) :
    Fin (c + 1) → Fin (c + 1) → ℝ :=
  fun a b =>
    if ha : a = Fin.last c then
      if hb : b = Fin.last c then E a b else xb (b.castPred hb)
    else if hb : b = Fin.last c then xb (a.castPred ha)
    else E a b

/-- The `_ETBE.set_MTBM` in-place write: overwrite the corner. -/
def setMTBM (E : Fin (c + 1) → Fin (c + 1) → ℝ) (m : ℝ) :
    Fin (c + 1) → Fin (c + 1) → ℝ :=
  fun a b => if a = Fin.last c ∧ b = Fin.last c then m else E a b

/-- One iteration's writes on one block's buffers (`set_yTBM`, `set_XTBM`,
`set_MTBM`). -/
def writeBorder (B : BorderBufs c) (yb : ℝ) (xb : Fin c → ℝ) (mm : ℝ) :
    BorderBufs c :=
  { E := setMTBM (setXTBM B.E xb) mm, yv := setYTBM B.yv yb }

/-- The `XTBX` view of a buffer (its `[:-1, :-1]` baseline block). -/
def viewXTBX (B : BorderBufs c) : Fin c → Fin c → ℝ :=
  fun a b => B.E a.castSucc b.castSucc

/-- The `XTBM` view (last column above the corner). -/
def viewXTBM (B : BorderBufs c) : Fin c → ℝ :=
  fun a => B.E a.castSucc (Fin.last c)

/-- The `MTBM` view (the corner). -/
def viewMTBM (B : BorderBufs c) : ℝ := B.E (Fin.last c) (Fin.last c)

/-- The `yTBX` view of the bordered vector. -/
def viewYTBX (B : BorderBufs c) : Fin c → ℝ :=
  fun a => B.yv a.castSucc

/-- The `yTBM` view (last entry of the bordered vector). -/
def viewYTBM (B : BorderBufs c) : ℝ := B.yv (Fin.last c)

/-- The buffers as `__init__` leaves them: the baseline blocks are filled
with `XTBX` and `yTBX` while the border holds whatever `numpy.empty`
produced — the arbitrary `junk` contents. -/
def initBufs (sc : Scanner n c) (junk : List (BorderBufs c)) :
    List (BorderBufs c) :=
  (sc.posBlocks.zip junk).map fun bj =>
    { E := fun a b =>
        if ha : a = Fin.last c then bj.2.E a b
        else if hb : b = Fin.last c then bj.2.E a b
        else XTBXblock sc bj.1 (a.castPred ha) (b.castPred hb)
      yv := fun a =>
        if ha : a = Fin.last c then bj.2.yv a
        else yTBX sc bj.1 (a.castPred ha) }

/-- Abstraction of `numpy_sugar.linalg.rsolve` as called by `_solve`: an
external routine that either returns some solution vector or raises
`LinAlgError` (modelled as `Except.error`), at any system size. -/
def Solver : Type :=
  ∀ m : ℕ, Matrix (Fin m) (Fin m) ℝ → (Fin m → ℝ) → Except Unit (Fin m → ℝ)

/-- The `_solve` helper of `_scan.py`: try `rsolve`; on `LinAlgError`,
emit a recoverable `RuntimeWarning` (the Boolean flag) and substitute the
all-zero solution. -/
def solveOr0 (sol : Solver) {m : ℕ} (A : Matrix (Fin m) (Fin m) ℝ)
    (b : Fin m → ℝ) : (Fin m → ℝ) × Bool :=
  match sol m A b with
  | Except.ok x => (x, false)
  | Except.error _ => (fun _ => 0, true)

/-- The `_bstar_1effect` residual assembled from the buffer views (as
`_bstar_unpack` passes them in `_multicovariate_loop`):
`yᵀBy - 2yᵀBEb + bᵀEᵀBEb` for the single-candidate bordered system. -/
def bstar1 (yBy : ℝ) (bufs : List (BorderBufs c)) (β : Fin c → ℝ) (α : ℝ) : ℝ :=
  yBy - 2 * (bufs.map fun B => ∑ a, viewYTBX B a * β a).sum
    - 2 * (bufs.map fun B => viewYTBM B * α).sum
    + (bufs.map fun B => ∑ a, ∑ b, β a * viewXTBX B a b * β b).sum
    + (bufs.map fun B => (∑ a, β a * viewXTBM B a) * α).sum
    + (bufs.map fun B => α * ∑ a, viewXTBM B a * β a).sum
    + (bufs.map fun B => α * viewMTBM B * α).sum

/-- One output row of `fast_scan` for one candidate, plus the warning
flag of its `_solve` call (the warning is a side channel in the source,
not part of the returned tuple). -/
structure Row where
  lml : ℝ
  effsize : ℝ
  scale : ℝ
  warned : Bool

/-- The buffers after the per-block border writes of one iteration. -/
def stepBufs (bufs : List (BorderBufs c)) (cd : List (ℝ × (Fin c → ℝ) × ℝ)) :
    List (BorderBufs c) :=
  (bufs.zip cd).map fun x => writeBorder x.1 x.2.1 x.2.2.1 x.2.2.2

/-- The summed bordered matrix `add.reduce([j.value for j in ETBE])`. -/
def leftMat (bufs2 : List (BorderBufs c)) : Matrix (Fin (c + 1)) (Fin (c + 1)) ℝ :=
  Matrix.of fun a b => (bufs2.map fun B => B.E a b).sum

/-- The summed bordered vector `add.reduce([j.value for j in yTBE])`. -/
def rightVec (bufs2 : List (BorderBufs c)) : Fin (c + 1) → ℝ :=
  fun a => (bufs2.map fun B => B.yv a).sum

/-- One iteration of `_multicovariate_loop`: write the candidate's
cross-terms into the borders of the preallocated buffers, solve the
summed bordered system, and assemble scale and log-likelihood from the
degenerate or exact solution's residual.  `cd` lists, per block, the
triple `(yTBM, XTBM column, MTBM)` of the candidate. -/
def candStep (sc : Scanner n c) (sol : Solver) (bufs : List (BorderBufs c))
    (cd : List (ℝ × (Fin c → ℝ) × ℝ)) : List (BorderBufs c) × Row :=
  let bufs2 := stepBufs bufs cd
  let xw := solveOr0 sol (leftMat bufs2) (rightVec bufs2)
  let β : Fin c → ℝ := fun a => xw.1 a.castSucc
  let α : ℝ := xw.1 (Fin.last c)
  let bs := bstar1 (yTBy sc) bufs2 β α
  let scl : ℝ :=
    match sc.scaleOpt with
    | none => bs / n
    | some s0 => s0
  let extra : ℝ :=
    match sc.scaleOpt with
    | none => 0
    | some s0 => (n : ℝ) - bs / s0
  (bufs2, ⟨(staticLml sc + extra - n * safeLog scl) / 2, α, scl, xw.2⟩)

/-- The candidate loop of `_multicovariate_loop`, threading the mutable
buffers through the candidates and collecting one row each. -/
def mcLoop (sc : Scanner n c) (sol : Solver) :
    List (List (ℝ × (Fin c → ℝ) × ℝ)) → List (BorderBufs c) →
      List (BorderBufs c) × List Row
  | [], bufs => (bufs, [])
  | cd :: rest, bufs =>
    let st := candStep sc sol bufs cd
    let out := mcLoop sc sol rest st.1
    (out.1, st.2 :: out.2)

/-- The per-candidate, per-block cross-terms `_fast_scan_chunk` computes
before entering the loop. -/
def candData (sc : Scanner n c) (M : Fin n → Fin p → ℝ) (j : Fin p) :
    List (ℝ × (Fin c → ℝ) × ℝ) :=
  sc.posBlocks.map fun b => (yTBM sc b M j, fun x => XTBM sc b M x j, MTBM sc b M j)

/-- Modelled from the spec: `hsolve` of `glimix_core._util` (not among
the staged sources) is the "specialized O(1)-algebra closed-form solve
when there is exactly one baseline covariate": the symmetric 2×2 system
`[[a00,a01],[a01,a11]]·x = [b0,b1]` solved in closed form, with a
pseudo-solution on a singular system (the spec calls this fallback
"pseudo-solve on singular normal equations" and leaves it numerically
underdetermined; no theorem below relies on the singular branch). -/
def hsolve (a00 a01 a11 b0 b1 : ℝ) : ℝ × ℝ :=
  if a00 * a11 - a01 * a01 ≠ 0 then
    ((b0 * a11 - b1 * a01) / (a00 * a11 - a01 * a01),
      (a00 * b1 - a01 * b0) / (a00 * a11 - a01 * a01))
  else if a00 ≠ 0 then (b0 / a00, 0)
  else (0, 0)

/-- One candidate of `_1covariate_loop`: the closed-form 2×2 solve,
reading the baseline Gram entry from the buffer views and `yTBX` from the
cache, with no buffer writes. -/
def oneCovStep (sc : Scanner n 1) (bufs : List (BorderBufs 1))
    (cd : List (ℝ × (Fin 1 → ℝ) × ℝ)) : Row :=
  let A00 := (bufs.map fun B => viewXTBX B 0 0).sum
  let A01 := (cd.map fun t => t.2.1 0).sum
  let A11 := (cd.map fun t => t.2.2).sum
  let b0 := (sc.posBlocks.map fun b => yTBX sc b 0).sum
  let b1 := (cd.map fun t => t.1).sum
  let x := hsolve A00 A01 A11 b0 b1
  let β := x.1
  let α := x.2
  let bs := yTBy sc - 2 * (sc.posBlocks.map fun b => yTBX sc b 0 * β).sum
    - 2 * (cd.map fun t => t.1 * α).sum
    + (bufs.map fun B => β * viewXTBX B 0 0 * β).sum
    + (cd.map fun t => β * t.2.1 0 * α).sum
    + (cd.map fun t => α * t.2.1 0 * β).sum
    + (cd.map fun t => α * t.2.2 * α).sum
  let scl : ℝ :=
    match sc.scaleOpt with
    | none => bs / n
    | some s0 => s0
  let extra : ℝ :=
    match sc.scaleOpt with
    | none => 0
    | some s0 => (n : ℝ) - bs / s0
  ⟨(staticLml sc + extra - n * safeLog scl) / 2, α, scl, false⟩

/-- The tuple `fast_scan` returns — `(lmls, effsizes, scales)`, one entry
per candidate — plus the warnings side channel. -/
structure ScanOutput where
  lmls : List ℝ
  effsizes : List ℝ
  scales : List ℝ
  warnings : List Bool

/-- Splitting the rows into the source's three returned arrays. -/
def collect (rows : List Row) : ScanOutput :=
  ⟨rows.map Row.lml, rows.map Row.effsize, rows.map Row.scale, rows.map Row.warned⟩

/-- The multicovariate scan path: run the buffer-threading loop over all
columns of `M` and split the rows into the returned arrays. -/
def mcScan (sc : Scanner n c) (sol : Solver) (bufs : List (BorderBufs c))
    (M : Fin n → Fin p → ℝ) : ScanOutput × List (BorderBufs c) :=
  let r := mcLoop sc sol ((List.finRange p).map (candData sc M)) bufs
  (collect r.2, r.1)

/-- The single-covariate scan path (no buffer writes). -/
def oneScan (sc : Scanner n 1) (bufs : List (BorderBufs 1))
    (M : Fin n → Fin p → ℝ) : ScanOutput × List (BorderBufs 1) :=
  (collect ((List.finRange p).map fun j => oneCovStep sc bufs (candData sc M j)),
    bufs)

/-- The method `fast_scan(M, verbose)`: validate, chunk (the chunking is
pure progress reporting; processing the candidates in one pass is
semantically identical), dispatch on `ncovariates == 1`, and assemble one
output entry per column of `M`.  The buffer list is threaded because the
multicovariate loop mutates the preallocated buffers in place. -/
def fastScan (sc : Scanner n c) (sol : Solver) (bufs : List (BorderBufs c))
    (M : Fin n → Fin p → ℝ) : ScanOutput × List (BorderBufs c) :=
  match c, sc, bufs with
  | 0, sc, bufs => mcScan sc sol bufs M
  | 1, sc, bufs => oneScan sc bufs M
  | _ + 2, sc, bufs => mcScan sc sol bufs M

/-- The summed baseline Gram matrix `A = sum(i.XTBX for i in ETBE)` of
`null_lml` (equal to the buffers' baseline views, which the loop never
overwrites). -/
def nullA (sc : Scanner n c) : Matrix (Fin c) (Fin c) ℝ :=
  Matrix.of fun a b => (sc.posBlocks.map fun bl => XTBXblock sc bl a b).sum

/-- The summed baseline vector `b = sum(yTBX)` of `null_lml`. -/
def nullb (sc : Scanner n c) : Fin c → ℝ :=
  fun a => (sc.posBlocks.map fun bl => yTBX sc bl a).sum

/-- The method `null_lml()`: solve the baseline normal equations from the
cached blocks and evaluate the no-candidate marginal log-likelihood (with
a plain, unclipped logarithm). -/
def nullLml (sc : Scanner n c) (sol : Solver) : ℝ :=
  let β := (solveOr0 sol (nullA sc) (nullb sc)).1
  let sqrdot := yTBy sc - ∑ a, nullb sc a * β a
  match sc.scaleOpt with
  | none => (staticLml sc - n * Real.log (sqrdot / n)) / 2
  | some s0 => (staticLml sc + n - sqrdot / s0 - n * Real.log s0) / 2

/-- A fully written buffer as a function of its baseline views and the
border values alone. -/
def mkBuf (base : Fin c → Fin c → ℝ) (ybase : Fin c → ℝ) (yb : ℝ)
    (xb : Fin c → ℝ) (mm : ℝ) : BorderBufs c :=
  { E := fun a b =>
      if ha : a = Fin.last c then
        if hb : b = Fin.last c then mm else xb (b.castPred hb)
      else if hb : b = Fin.last c then xb (a.castPred ha)
      else base (a.castPred ha) (b.castPred hb)
    yv := fun a =>
      if ha : a = Fin.last c then yb else ybase (a.castPred ha) }

/-- An iteration's writes fill the whole border, so the written buffer is
a function of the baseline views and the written values only: in-place
overwriting never touches the cached baseline blocks. -/
theorem writeBorder_eq_mkBuf (B : BorderBufs c) (yb : ℝ) (xb : Fin c → ℝ)
    (mm : ℝ) :
    writeBorder B yb xb mm = mkBuf (viewXTBX B) (viewYTBX B) yb xb mm := by
  ext a b
  · simp only [writeBorder, setMTBM, setXTBM, mkBuf]
    by_cases ha : a = Fin.last c
    · by_cases hb : b = Fin.last c
      · rw [if_pos ⟨ha, hb⟩, dif_pos ha, dif_pos hb]
      · rw [if_neg (fun hcontra => hb hcontra.2), dif_pos ha, dif_pos ha,
          dif_neg hb, dif_neg hb]
    · by_cases hb : b = Fin.last c
      · rw [if_neg (fun hcontra => ha hcontra.1), dif_neg ha, dif_neg ha,
          dif_pos hb, dif_pos hb]
      · rw [if_neg (fun hcontra => ha hcontra.1), dif_neg ha, dif_neg ha,
          dif_neg hb, dif_neg hb, viewXTBX, Fin.castSucc_castPred,
          Fin.castSucc_castPred]
  · simp only [writeBorder, setYTBM, mkBuf]
    by_cases ha : a = Fin.last c
    · rw [if_pos ha, dif_pos ha]
    · rw [if_neg ha, dif_neg ha, viewYTBX, Fin.castSucc_castPred]

theorem viewXTBX_mkBuf (base : Fin c → Fin c → ℝ) (ybase : Fin c → ℝ)
    (yb : ℝ) (xb : Fin c → ℝ) (mm : ℝ) :
    viewXTBX (mkBuf base ybase yb xb mm) = base := by
  funext a b
  have ha := (Fin.castSucc_lt_last a).ne
  have hb := (Fin.castSucc_lt_last b).ne
  simp only [viewXTBX, mkBuf]
  rw [dif_neg ha, dif_neg hb, Fin.castPred_castSucc, Fin.castPred_castSucc]

theorem viewYTBX_mkBuf (base : Fin c → Fin c → ℝ) (ybase : Fin c → ℝ)
    (yb : ℝ) (xb : Fin c → ℝ) (mm : ℝ) :
    viewYTBX (mkBuf base ybase yb xb mm) = ybase := by
  funext a
  have ha := (Fin.castSucc_lt_last a).ne
  simp only [viewYTBX, mkBuf]
  rw [dif_neg ha, Fin.castPred_castSucc]

/-- The buffers hold the cached baseline blocks in their `[:-1]` views,
one buffer per D-positive block. -/
def BufsAligned (sc : Scanner n c) (bufs : List (BorderBufs c)) : Prop :=
  List.Forall₂
    (fun (b : ScanBlock n) (B : BorderBufs c) =>
      viewXTBX B = XTBXblock sc b ∧ viewYTBX B = yTBX sc b)
    sc.posBlocks bufs

theorem initBufs_aligned (sc : Scanner n c) (junk : List (BorderBufs c))
    (hj : sc.posBlocks.length = junk.length) :
    BufsAligned sc (initBufs sc junk) := by
  rw [BufsAligned, initBufs]
  have key : ∀ (L : List (ScanBlock n)) (J : List (BorderBufs c)),
      L.length = J.length →
      List.Forall₂
        (fun (b : ScanBlock n) (B : BorderBufs c) =>
          viewXTBX B = XTBXblock sc b ∧ viewYTBX B = yTBX sc b)
        L ((L.zip J).map fun bj =>
          { E := fun a b =>
              if ha : a = Fin.last c then bj.2.E a b
              else if hb : b = Fin.last c then bj.2.E a b
              else XTBXblock sc bj.1 (a.castPred ha) (b.castPred hb)
            yv := fun a =>
              if ha : a = Fin.last c then bj.2.yv a
              else yTBX sc bj.1 (a.castPred ha) }) := by
    intro L
    induction L with
    | nil =>
      intro J h
      exact List.Forall₂.nil
    | cons b L ih =>
      intro J h
      cases J with
      | nil => simp at h
      | cons Bj J2 =>
        rw [List.zip_cons_cons, List.map_cons]
        refine List.Forall₂.cons ⟨?_, ?_⟩ (ih J2 (by simpa using h))
        · funext x x'
          have hx := (Fin.castSucc_lt_last x).ne
          have hx' := (Fin.castSucc_lt_last x').ne
          show (if ha : (x.castSucc : Fin (c + 1)) = Fin.last c then _
            else if hb : (x'.castSucc : Fin (c + 1)) = Fin.last c then _
            else XTBXblock sc b (Fin.castPred _ ha) (Fin.castPred _ hb)) = _
          rw [dif_neg hx, dif_neg hx', Fin.castPred_castSucc, Fin.castPred_castSucc]
        · funext x
          have hx := (Fin.castSucc_lt_last x).ne
          show (if ha : (x.castSucc : Fin (c + 1)) = Fin.last c then _
            else yTBX sc b (Fin.castPred _ ha)) = _
          rw [dif_neg hx, Fin.castPred_castSucc]
  exact key sc.posBlocks junk hj

/-- Two buffers agreeing on their cached baseline views. -/
def ViewEq (BA BB : BorderBufs c) : Prop :=
  viewXTBX BA = viewXTBX BB ∧ viewYTBX BA = viewYTBX BB

theorem viewEq_refl_list (bufs : List (BorderBufs c)) :
    List.Forall₂ ViewEq bufs bufs :=
  List.forall₂_same.2 fun _ _ => ⟨rfl, rfl⟩

theorem stepBufs_congr (bufsA bufsB : List (BorderBufs c))
    (cd : List (ℝ × (Fin c → ℝ) × ℝ)) (h : List.Forall₂ ViewEq bufsA bufsB) :
    stepBufs bufsA cd = stepBufs bufsB cd := by
  induction h generalizing cd with
  | nil => rfl
  | cons hpair hrest ih =>
    cases cd with
    | nil => rfl
    | cons t cd2 =>
      simp only [stepBufs, List.zip_cons_cons, List.map_cons]
      refine congrArg₂ List.cons ?_ (ih cd2)
      rw [writeBorder_eq_mkBuf, writeBorder_eq_mkBuf, hpair.1, hpair.2]

theorem candStep_eq_of_viewEq (sc : Scanner n c) (sol : Solver)
    (bufsA bufsB : List (BorderBufs c)) (cd : List (ℝ × (Fin c → ℝ) × ℝ))
    (h : List.Forall₂ ViewEq bufsA bufsB) :
    candStep sc sol bufsA cd = candStep sc sol bufsB cd := by
  unfold candStep
  rw [stepBufs_congr bufsA bufsB cd h]

theorem bufsAligned_stepBufs (sc : Scanner n c) (bufs : List (BorderBufs c))
    (cd : List (ℝ × (Fin c → ℝ) × ℝ)) (h : BufsAligned sc bufs)
    (hlen : bufs.length ≤ cd.length) : BufsAligned sc (stepBufs bufs cd) := by
  rw [BufsAligned] at h ⊢
  revert hlen
  generalize sc.posBlocks = L at h ⊢
  induction h generalizing cd with
  | nil =>
    intro hlen
    exact List.Forall₂.nil
  | cons hpair hrest ih =>
    intro hlen
    cases cd with
    | nil => simp at hlen
    | cons t cd2 =>
      simp only [stepBufs, List.zip_cons_cons, List.map_cons]
      refine List.Forall₂.cons ?_ (ih cd2 (by simpa using hlen))
      rw [writeBorder_eq_mkBuf]
      exact ⟨(viewXTBX_mkBuf _ _ _ _ _).trans hpair.1,
        (viewYTBX_mkBuf _ _ _ _ _).trans hpair.2⟩

theorem aligned_viewEq (sc : Scanner n c) {xs ys : List (BorderBufs c)}
    (hx : BufsAligned sc xs) (hy : BufsAligned sc ys) :
    List.Forall₂ ViewEq xs ys := by
  rw [BufsAligned] at hx hy
  generalize sc.posBlocks = L at hx hy
  induction hx generalizing ys with
  | nil =>
    cases hy
    exact List.Forall₂.nil
  | cons hpair hrest ih =>
    cases hy with
    | cons hpair2 hrest2 =>
      exact List.Forall₂.cons
        ⟨hpair.1.trans hpair2.1.symm, hpair.2.trans hpair2.2.symm⟩ (ih hrest2)

theorem mcLoop_length (sc : Scanner n c) (sol : Solver)
    (cds : List (List (ℝ × (Fin c → ℝ) × ℝ))) (bufs : List (BorderBufs c)) :
    (mcLoop sc sol cds bufs).2.length = cds.length := by
  induction cds generalizing bufs with
  | nil => rfl
  | cons cd rest ih => simp [mcLoop, ih]

theorem mcLoop_congr (sc : Scanner n c) (sol : Solver)
    (cds : List (List (ℝ × (Fin c → ℝ) × ℝ))) :
    ∀ bufsA bufsB, List.Forall₂ ViewEq bufsA bufsB →
      (mcLoop sc sol cds bufsA).2 = (mcLoop sc sol cds bufsB).2
        ∧ List.Forall₂ ViewEq (mcLoop sc sol cds bufsA).1
            (mcLoop sc sol cds bufsB).1 := by
  induction cds with
  | nil =>
    intro bufsA bufsB h
    exact ⟨rfl, h⟩
  | cons cd rest ih =>
    intro bufsA bufsB h
    have he := candStep_eq_of_viewEq sc sol bufsA bufsB cd h
    simp only [mcLoop]
    rw [he]
    exact ⟨rfl, viewEq_refl_list _⟩

theorem mcLoop_aligned (sc : Scanner n c) (sol : Solver)
    (cds : List (List (ℝ × (Fin c → ℝ) × ℝ))) (bufs : List (BorderBufs c))
    (h : BufsAligned sc bufs)
    (hlen : ∀ cd ∈ cds, sc.posBlocks.length ≤ cd.length) :
    BufsAligned sc (mcLoop sc sol cds bufs).1 := by
  induction cds generalizing bufs with
  | nil => exact h
  | cons cd rest ih =>
    simp only [mcLoop]
    refine ih (stepBufs bufs cd) ?_ fun cd2 hmem => hlen cd2 (List.mem_cons_of_mem _ hmem)
    refine bufsAligned_stepBufs sc bufs cd h ?_
    rw [← h.length_eq]
    exact hlen cd (List.mem_cons_self _ _)

theorem mcScan_norepeat (sc : Scanner n c) (sol : Solver)
    (M : Fin n → Fin p → ℝ) (bufs : List (BorderBufs c))
    (h : BufsAligned sc bufs) :
    (mcScan sc sol bufs M).1 = (mcScan sc sol (mcScan sc sol bufs M).2 M).1
      ∧ BufsAligned sc (mcScan sc sol bufs M).2 := by
  have hlens : ∀ cd ∈ (List.finRange p).map (candData sc M),
      sc.posBlocks.length ≤ cd.length := by
    intro cd hcd
    obtain ⟨j, _, rfl⟩ := List.mem_map.1 hcd
    rw [candData, List.length_map]
  have hal := mcLoop_aligned sc sol ((List.finRange p).map (candData sc M)) bufs
    h hlens
  have hpair := aligned_viewEq sc h hal
  have hc := mcLoop_congr sc sol ((List.finRange p).map (candData sc M)) bufs
    (mcLoop sc sol ((List.finRange p).map (candData sc M)) bufs).1 hpair
  exact ⟨congrArg collect hc.1, hal⟩

/-- Claim C9: two successive `fast_scan` calls on the same scanner return
identical outputs — the in-place border writes never modify the cached
baseline blocks of the preallocated buffers (here: the buffers stay
aligned with the cached `XTBX`/`yTBX` blocks, whatever garbage
`numpy.empty` left in the borders), so no state leaks between candidates
or between calls. -/
theorem C9_no_state_leak (sc : Scanner n c) (sol : Solver)
    (M : Fin n → Fin p → ℝ) (junk : List (BorderBufs c))
    (hj : sc.posBlocks.length = junk.length) :
    (fastScan sc sol (initBufs sc junk) M).1
        = (fastScan sc sol (fastScan sc sol (initBufs sc junk) M).2 M).1
      ∧ BufsAligned sc (fastScan sc sol (initBufs sc junk) M).2 := by
  have h0 : BufsAligned sc (initBufs sc junk) := initBufs_aligned sc junk hj
  match c, sc, junk, h0, hj with
  | 0, sc, junk, h0, hj =>
    exact mcScan_norepeat sc sol M (initBufs sc junk) h0
  | 1, sc, junk, h0, hj =>
    exact ⟨rfl, h0⟩
  | m + 2, sc, junk, h0, hj =>
    exact mcScan_norepeat sc sol M (initBufs sc junk) h0

/-- The empty scanner used to instantiate hypotheses concretely. -/
def scEmpty : Scanner 1 0 :=
  ⟨[], ![0], fun _ x => x.elim0, none⟩

theorem scEmpty_posBlocks : scEmpty.posBlocks = [] := rfl

/-- Witness for C9 at a concrete scanner. -/
theorem C9_no_state_leak_witness :
    (fastScan scEmpty (fun _ _ b => Except.ok b) (initBufs scEmpty [])
          (fun _ (j : Fin 0) => j.elim0)).1
        = (fastScan scEmpty (fun _ _ b => Except.ok b)
            (fastScan scEmpty (fun _ _ b => Except.ok b) (initBufs scEmpty [])
              (fun _ (j : Fin 0) => j.elim0)).2 (fun _ (j : Fin 0) => j.elim0)).1
      ∧ BufsAligned scEmpty
          (fastScan scEmpty (fun _ _ b => Except.ok b) (initBufs scEmpty [])
            (fun _ (j : Fin 0) => j.elim0)).2 :=
  C9_no_state_leak scEmpty (fun _ _ b => Except.ok b) (fun _ (j : Fin 0) => j.elim0)
    [] rfl

theorem fastScan_lengths (sc : Scanner n c) (sol : Solver)
    (bufs : List (BorderBufs c)) (M : Fin n → Fin p → ℝ) :
    (fastScan sc sol bufs M).1.lmls.length = p
      ∧ (fastScan sc sol bufs M).1.effsizes.length = p
      ∧ (fastScan sc sol bufs M).1.scales.length = p := by
  match c, sc, bufs with
  | 0, sc, bufs =>
    refine ⟨?_, ?_, ?_⟩ <;>
      simp [fastScan, collect, mcScan, mcLoop_length]
  | 1, sc, bufs =>
    refine ⟨?_, ?_, ?_⟩ <;>
      simp [fastScan, collect, oneScan]
  | m + 2, sc, bufs =>
    refine ⟨?_, ?_, ?_⟩ <;>
      simp [fastScan, collect, mcScan, mcLoop_length]

theorem bstar1_zero (yBy : ℝ) (bufs : List (BorderBufs c)) :
    bstar1 yBy bufs (fun _ => 0) 0 = yBy := by
  simp [bstar1]

theorem viewXTBM_mkBuf (base : Fin c → Fin c → ℝ) (ybase : Fin c → ℝ)
    (yb : ℝ) (xb : Fin c → ℝ) (mm : ℝ) :
    viewXTBM (mkBuf base ybase yb xb mm) = xb := by
  funext a
  have ha := (Fin.castSucc_lt_last a).ne
  simp only [viewXTBM, mkBuf]
  rw [dif_neg ha]
  simp [Fin.castPred_castSucc]

theorem viewMTBM_mkBuf (base : Fin c → Fin c → ℝ) (ybase : Fin c → ℝ)
    (yb : ℝ) (xb : Fin c → ℝ) (mm : ℝ) :
    viewMTBM (mkBuf base ybase yb xb mm) = mm := by
  simp only [viewMTBM, mkBuf]
  simp

theorem viewYTBM_mkBuf (base : Fin c → Fin c → ℝ) (ybase : Fin c → ℝ)
    (yb : ℝ) (xb : Fin c → ℝ) (mm : ℝ) :
    viewYTBM (mkBuf base ybase yb xb mm) = yb := by
  simp only [viewYTBM, mkBuf]
  simp

theorem list_finsum_swap {α : Type} {m : ℕ} (L : List α) (f : α → Fin m → ℝ) :
    (L.map fun x => ∑ i, f x i).sum = ∑ i, (L.map fun x => f x i).sum := by
  induction L with
  | nil => simp
  | cons x L ih => simp [ih, Finset.sum_add_distrib]

/-- Claim C5's code evaluation: `fast_scan` returns exactly the triple
`(lmls, effsizes, scales)` with one entry per column of `M` (the claimed
fourth component, the per-candidate effect sizes of the baseline
covariates, is not among the outputs). -/
theorem C5_rows_per_column (sc : Scanner n c) (sol : Solver)
    (bufs : List (BorderBufs c)) (M : Fin n → Fin p → ℝ) :
    (fastScan sc sol bufs M).1.lmls.length = p
      ∧ (fastScan sc sol bufs M).1.effsizes.length = p
      ∧ (fastScan sc sol bufs M).1.scales.length = p :=
  fastScan_lengths sc sol bufs M

/-- Claim C4: when the bordered system's solve raises (`LinAlgError`),
`fast_scan` does not raise: the `_solve` wrapper emits a recoverable
warning and substitutes the all-zero solution, so the candidate's effect
size is zero while the scale and log-likelihood are assembled from the
degenerate solution's residual (`bstar = yᵀBy`), and the batch still
yields one output row per candidate. -/
theorem C4_singular_recoverable (sc : Scanner n c) (sol : Solver)
    (bufs : List (BorderBufs c)) (cd : List (ℝ × (Fin c → ℝ) × ℝ))
    (hfail : sol (c + 1) (leftMat (stepBufs bufs cd)) (rightVec (stepBufs bufs cd))
      = Except.error ()) :
    (candStep sc sol bufs cd).2.warned = true
      ∧ (candStep sc sol bufs cd).2.effsize = 0
      ∧ (candStep sc sol bufs cd).2.scale
          = (match sc.scaleOpt with
              | none => yTBy sc / n
              | some s0 => s0)
      ∧ (candStep sc sol bufs cd).2.lml
          = (staticLml sc
              + (match sc.scaleOpt with
                  | none => 0
                  | some s0 => (n : ℝ) - yTBy sc / s0)
              - n * safeLog (match sc.scaleOpt with
                  | none => yTBy sc / n
                  | some s0 => s0)) / 2
      ∧ (∀ q : ℕ, ∀ M : Fin n → Fin q → ℝ,
          (fastScan sc sol bufs M).1.lmls.length = q) := by
  have hx : solveOr0 sol (leftMat (stepBufs bufs cd)) (rightVec (stepBufs bufs cd))
      = (fun _ => 0, true) := by rw [solveOr0, hfail]
  simp only [candStep, hx]
  rw [bstar1_zero]
  refine ⟨trivial, trivial, rfl, rfl, ?_⟩
  intro q M
  exact (fastScan_lengths sc sol bufs M).1

/-- The bordered system matrix a zero candidate produces: the baseline
Gram block with an all-zero border. -/
def borderedA (sc : Scanner n c) : Matrix (Fin (c + 1)) (Fin (c + 1)) ℝ :=
  Matrix.of fun a b =>
    if ha : a = Fin.last c then 0
    else if hb : b = Fin.last c then 0
    else nullA sc (a.castPred ha) (b.castPred hb)

/-- The bordered right-hand side a zero candidate produces. -/
def borderedb (sc : Scanner n c) : Fin (c + 1) → ℝ :=
  fun a => if ha : a = Fin.last c then 0 else nullb sc (a.castPred ha)

theorem candData_zero (sc : Scanner n c) {q : ℕ} (j : Fin q) :
    candData sc (fun _ _ => (0:ℝ)) j
      = sc.posBlocks.map fun _ => ((0:ℝ), fun _ => (0:ℝ), (0:ℝ)) := by
  rw [candData]
  have hfun : (fun b : ScanBlock n =>
        (yTBM sc b (fun _ _ => (0:ℝ)) j, fun x => XTBM sc b (fun _ _ => (0:ℝ)) x j,
          MTBM sc b (fun _ _ => (0:ℝ)) j))
      = fun _ : ScanBlock n => ((0:ℝ), fun _ : Fin c => (0:ℝ), (0:ℝ)) := by
    funext b
    refine congrArg₂ Prod.mk ?_ (congrArg₂ Prod.mk ?_ ?_)
    · simp [yTBM, MTQ]
    · funext x
      simp [XTBM, MTQ]
    · simp [MTBM, MTQ]
  rw [hfun]

theorem zero_cand_bufs (sc : Scanner n c) (bufs : List (BorderBufs c))
    (h : BufsAligned sc bufs) :
    stepBufs bufs (sc.posBlocks.map fun _ => ((0:ℝ), fun _ => (0:ℝ), (0:ℝ)))
      = sc.posBlocks.map fun bl =>
          mkBuf (XTBXblock sc bl) (yTBX sc bl) 0 (fun _ => 0) 0 := by
  rw [BufsAligned] at h
  generalize sc.posBlocks = L at h ⊢
  induction h with
  | nil => rfl
  | cons hpair hrest ih =>
    simp only [List.map_cons, stepBufs, List.zip_cons_cons]
    refine congrArg₂ List.cons ?_ ?_
    · rw [writeBorder_eq_mkBuf, hpair.1, hpair.2]
    · exact ih

theorem zero_cand_left (sc : Scanner n c) :
    leftMat (sc.posBlocks.map fun bl =>
        mkBuf (XTBXblock sc bl) (yTBX sc bl) 0 (fun _ => 0) 0)
      = borderedA sc := by
  ext a b
  rw [leftMat, Matrix.of_apply, List.map_map, borderedA, Matrix.of_apply]
  by_cases ha : a = Fin.last c
  · rw [dif_pos ha]
    refine List.sum_eq_zero fun x hx => ?_
    obtain ⟨bl, _, rfl⟩ := List.mem_map.1 hx
    show (mkBuf (XTBXblock sc bl) (yTBX sc bl) 0 (fun _ => 0) 0).E a b = 0
    subst ha
    by_cases hb : b = Fin.last c <;> simp [mkBuf, hb]
  · by_cases hb : b = Fin.last c
    · rw [dif_neg ha, dif_pos hb]
      refine List.sum_eq_zero fun x hx => ?_
      obtain ⟨bl, _, rfl⟩ := List.mem_map.1 hx
      show (mkBuf (XTBXblock sc bl) (yTBX sc bl) 0 (fun _ => 0) 0).E a b = 0
      subst hb
      simp [mkBuf, ha]
    · rw [dif_neg ha, dif_neg hb]
      have hfun : ((fun B : BorderBufs c => B.E a b) ∘ fun bl =>
            mkBuf (XTBXblock sc bl) (yTBX sc bl) 0 (fun _ => 0) 0)
          = fun bl => XTBXblock sc bl (a.castPred ha) (b.castPred hb) := by
        funext bl
        show (mkBuf (XTBXblock sc bl) (yTBX sc bl) 0 (fun _ => 0) 0).E a b = _
        simp only [mkBuf]
        rw [dif_neg ha, dif_neg hb]
      rw [hfun, nullA, Matrix.of_apply]

theorem zero_cand_right (sc : Scanner n c) :
    rightVec (sc.posBlocks.map fun bl =>
        mkBuf (XTBXblock sc bl) (yTBX sc bl) 0 (fun _ => 0) 0)
      = borderedb sc := by
  funext a
  rw [rightVec, List.map_map, borderedb]
  by_cases ha : a = Fin.last c
  · rw [dif_pos ha]
    refine List.sum_eq_zero fun x hx => ?_
    obtain ⟨bl, _, rfl⟩ := List.mem_map.1 hx
    show (mkBuf (XTBXblock sc bl) (yTBX sc bl) 0 (fun _ => 0) 0).yv a = 0
    subst ha
    simp [mkBuf]
  · rw [dif_neg ha]
    have hfun : ((fun B : BorderBufs c => B.yv a) ∘ fun bl =>
          mkBuf (XTBXblock sc bl) (yTBX sc bl) 0 (fun _ => 0) 0)
        = fun bl => yTBX sc bl (a.castPred ha) := by
      funext bl
      show (mkBuf (XTBXblock sc bl) (yTBX sc bl) 0 (fun _ => 0) 0).yv a = _
      simp only [mkBuf]
      rw [dif_neg ha]
    rw [hfun, nullb]

theorem list_sum_map_mul_right {α : Type} (L : List α) (f : α → ℝ) (r : ℝ) :
    (L.map fun x => f x * r).sum = (L.map f).sum * r := by
  induction L with
  | nil => simp
  | cons x L ih => simp only [List.map_cons, List.sum_cons, ih, add_mul]

theorem list_sum_map_mul_three {α : Type} (L : List α) (f : α → ℝ) (u v : ℝ) :
    (L.map fun x => u * f x * v).sum = u * (L.map f).sum * v := by
  induction L with
  | nil => simp
  | cons x L ih =>
    simp only [List.map_cons, List.sum_cons, ih]
    ring

/-- `_bstar_1effect` on the buffers a zero candidate produces: only the
baseline terms survive, giving the null model's quadratic form. -/
theorem bstar1_zero_cand (sc : Scanner n c) (β : Fin c → ℝ) (α : ℝ) :
    bstar1 (yTBy sc)
        (sc.posBlocks.map fun bl =>
          mkBuf (XTBXblock sc bl) (yTBX sc bl) 0 (fun _ => 0) 0) β α
      = yTBy sc - 2 * ∑ a, nullb sc a * β a
          + ∑ a, ∑ b, β a * nullA sc a b * β b := by
  rw [bstar1]
  have e1 : ((sc.posBlocks.map fun bl =>
        mkBuf (XTBXblock sc bl) (yTBX sc bl) 0 (fun _ => 0) 0).map
          fun B => ∑ a, viewYTBX B a * β a).sum = ∑ a, nullb sc a * β a := by
    rw [List.map_map]
    have hc : ((fun B : BorderBufs c => ∑ a, viewYTBX B a * β a) ∘ fun bl =>
          mkBuf (XTBXblock sc bl) (yTBX sc bl) 0 (fun _ => 0) 0)
        = fun bl => ∑ a, yTBX sc bl a * β a := by
      funext bl
      simp [viewYTBX_mkBuf]
    rw [hc, list_finsum_swap sc.posBlocks fun bl a => yTBX sc bl a * β a]
    refine Finset.sum_congr rfl fun a _ => ?_
    exact list_sum_map_mul_right sc.posBlocks (fun bl => yTBX sc bl a) (β a)
  have e2 : ((sc.posBlocks.map fun bl =>
        mkBuf (XTBXblock sc bl) (yTBX sc bl) 0 (fun _ => 0) 0).map
          fun B => viewYTBM B * α).sum = 0 := by
    refine List.sum_eq_zero fun t ht => ?_
    obtain ⟨B, hB, rfl⟩ := List.mem_map.1 ht
    obtain ⟨bl, _, rfl⟩ := List.mem_map.1 hB
    simp [viewYTBM_mkBuf]
  have e3 : ((sc.posBlocks.map fun bl =>
        mkBuf (XTBXblock sc bl) (yTBX sc bl) 0 (fun _ => 0) 0).map
          fun B => ∑ a, ∑ b, β a * viewXTBX B a b * β b).sum
      = ∑ a, ∑ b, β a * nullA sc a b * β b := by
    rw [List.map_map]
    have hc : ((fun B : BorderBufs c => ∑ a, ∑ b, β a * viewXTBX B a b * β b)
          ∘ fun bl => mkBuf (XTBXblock sc bl) (yTBX sc bl) 0 (fun _ => 0) 0)
        = fun bl => ∑ a, ∑ b, β a * XTBXblock sc bl a b * β b := by
      funext bl
      simp [viewXTBX_mkBuf]
    rw [hc, list_finsum_swap sc.posBlocks
      fun bl a => ∑ b, β a * XTBXblock sc bl a b * β b]
    refine Finset.sum_congr rfl fun a _ => ?_
    rw [list_finsum_swap sc.posBlocks fun bl b => β a * XTBXblock sc bl a b * β b]
    refine Finset.sum_congr rfl fun b _ => ?_
    exact list_sum_map_mul_three sc.posBlocks
      (fun bl => XTBXblock sc bl a b) (β a) (β b)
  have e4 : ((sc.posBlocks.map fun bl =>
        mkBuf (XTBXblock sc bl) (yTBX sc bl) 0 (fun _ => 0) 0).map
          fun B => (∑ a, β a * viewXTBM B a) * α).sum = 0 := by
    refine List.sum_eq_zero fun t ht => ?_
    obtain ⟨B, hB, rfl⟩ := List.mem_map.1 ht
    obtain ⟨bl, _, rfl⟩ := List.mem_map.1 hB
    simp [viewXTBM_mkBuf]
  have e5 : ((sc.posBlocks.map fun bl =>
        mkBuf (XTBXblock sc bl) (yTBX sc bl) 0 (fun _ => 0) 0).map
          fun B => α * ∑ a, viewXTBM B a * β a).sum = 0 := by
    refine List.sum_eq_zero fun t ht => ?_
    obtain ⟨B, hB, rfl⟩ := List.mem_map.1 ht
    obtain ⟨bl, _, rfl⟩ := List.mem_map.1 hB
    simp [viewXTBM_mkBuf]
  have e6 : ((sc.posBlocks.map fun bl =>
        mkBuf (XTBXblock sc bl) (yTBX sc bl) 0 (fun _ => 0) 0).map
          fun B => α * viewMTBM B * α).sum = 0 := by
    refine List.sum_eq_zero fun t ht => ?_
    obtain ⟨B, hB, rfl⟩ := List.mem_map.1 ht
    obtain ⟨bl, _, rfl⟩ := List.mem_map.1 hB
    simp [viewMTBM_mkBuf]
  rw [e1, e2, e3, e4, e5, e6]
  ring

/-- On an all-zero candidate, one `_multicovariate_loop` iteration
produces the null model's log-likelihood and scale, while the returned
per-candidate effect size is the bordered solution's last coordinate —
the candidate coefficient. -/
theorem candStep_zero (sc : Scanner n c) (sol : Solver)
    (junk : List (BorderBufs c)) (βn : Fin c → ℝ) (x : Fin (c + 1) → ℝ)
    (hj : sc.posBlocks.length = junk.length)
    (hscale : sc.scaleOpt = none)
    (hnull : sol c (nullA sc) (nullb sc) = Except.ok βn)
    (hbord : sol (c + 1) (borderedA sc) (borderedb sc) = Except.ok x)
    (hx : ∀ a : Fin c, x a.castSucc = βn a)
    (hexact : ∀ a, ∑ b, nullA sc a b * βn b = nullb sc a)
    (hbig : epsilonSmall ≤ (yTBy sc - ∑ a, nullb sc a * βn a) / n) :
    (candStep sc sol (initBufs sc junk)
        (sc.posBlocks.map fun _ => ((0:ℝ), fun _ => (0:ℝ), (0:ℝ)))).2
      = ⟨nullLml sc sol, x (Fin.last c),
          (yTBy sc - ∑ a, nullb sc a * βn a) / n, false⟩ := by
  have hal : BufsAligned sc (initBufs sc junk) := initBufs_aligned sc junk hj
  have hb2 := zero_cand_bufs sc (initBufs sc junk) hal
  have hsv : solveOr0 sol
      (leftMat (stepBufs (initBufs sc junk)
        (sc.posBlocks.map fun _ => ((0:ℝ), fun _ => (0:ℝ), (0:ℝ)))))
      (rightVec (stepBufs (initBufs sc junk)
        (sc.posBlocks.map fun _ => ((0:ℝ), fun _ => (0:ℝ), (0:ℝ)))))
      = (x, false) := by
    rw [hb2, zero_cand_left, zero_cand_right, solveOr0, hbord]
  simp only [candStep, hsv, hscale]
  have hβ : (fun a : Fin c => x a.castSucc) = βn := funext hx
  rw [hb2, hβ, bstar1_zero_cand]
  have hquad : ∑ a, ∑ b, βn a * nullA sc a b * βn b
      = ∑ a, nullb sc a * βn a := by
    refine Finset.sum_congr rfl fun a _ => ?_
    calc ∑ b, βn a * nullA sc a b * βn b
        = βn a * ∑ b, nullA sc a b * βn b := by
          rw [Finset.mul_sum]
          exact Finset.sum_congr rfl fun b _ => by ring
      _ = βn a * nullb sc a := by rw [hexact a]
      _ = nullb sc a * βn a := mul_comm _ _
  have hS : yTBy sc - 2 * ∑ a, nullb sc a * βn a
      + ∑ a, ∑ b, βn a * nullA sc a b * βn b
      = yTBy sc - ∑ a, nullb sc a * βn a := by
    rw [hquad]
    ring
  rw [hS]
  have hlog : safeLog ((yTBy sc - ∑ a, nullb sc a * βn a) / n)
      = Real.log ((yTBy sc - ∑ a, nullb sc a * βn a) / n) := by
    rw [safeLog, max_eq_left hbig]
  have hso : solveOr0 sol (nullA sc) (nullb sc) = (βn, false) := by
    rw [solveOr0, hnull]
  have hnl : nullLml sc sol
      = (staticLml sc
          - n * Real.log ((yTBy sc - ∑ a, nullb sc a * βn a) / n)) / 2 := by
    simp only [nullLml, hso, hscale]
  rw [hlog, hnl, add_zero]

/-- Claim C7: on an all-zero candidate matrix, each candidate of
`fast_scan`'s multicovariate path yields a log-likelihood equal to
`null_lml()` — but the returned effect size is the bordered solution's
last coordinate, the candidate's own coefficient `α`, not the null
model's baseline effect sizes `β`. -/
theorem C7_zero_candidates (sc : Scanner n (c + 2)) (sol : Solver)
    (junk : List (BorderBufs (c + 2))) (βn : Fin (c + 2) → ℝ)
    (x : Fin (c + 3) → ℝ)
    (hj : sc.posBlocks.length = junk.length)
    (hscale : sc.scaleOpt = none)
    (hnull : sol (c + 2) (nullA sc) (nullb sc) = Except.ok βn)
    (hbord : sol (c + 3) (borderedA sc) (borderedb sc) = Except.ok x)
    (hx : ∀ a : Fin (c + 2), x a.castSucc = βn a)
    (hexact : ∀ a, ∑ b, nullA sc a b * βn b = nullb sc a)
    (hbig : epsilonSmall ≤ (yTBy sc - ∑ a, nullb sc a * βn a) / n) :
    (fastScan sc sol (initBufs sc junk)
        (fun _ (_ : Fin 1) => (0:ℝ))).1.lmls = [nullLml sc sol]
      ∧ (fastScan sc sol (initBufs sc junk)
          (fun _ (_ : Fin 1) => (0:ℝ))).1.effsizes
        = [x (Fin.last (c + 2))] := by
  have hrow := candStep_zero sc sol junk βn x hj hscale hnull hbord hx hexact hbig
  have hcd : candData sc (fun _ (_ : Fin 1) => (0:ℝ)) 0
      = sc.posBlocks.map fun _ => ((0:ℝ), fun _ => (0:ℝ), (0:ℝ)) :=
    candData_zero sc 0
  have hfs : (fastScan sc sol (initBufs sc junk)
        (fun _ (_ : Fin 1) => (0:ℝ))).1
      = collect [(candStep sc sol (initBufs sc junk)
          (candData sc (fun _ (_ : Fin 1) => (0:ℝ)) 0)).2] := rfl
  rw [hfs, hcd, hrow]
  exact ⟨rfl, rfl⟩

/-- A concrete block for the C7 witness: the identity eigenvector block
of a two-sample model with unit diagonal. -/
def c7bl : ScanBlock 2 := ⟨2, ![![1, 0], ![0, 1]], fun _ => 1⟩

/-- A concrete scanner for the C7 witness: two covariates whose first
column is the first standard basis vector and whose second column is
zero, outcome `(1, 2)`, learned scale. -/
def c7sc : Scanner 2 2 := ⟨[c7bl], ![1, 2], ![![1, 0], ![0, 0]], none⟩

theorem c7sc_posBlocks : c7sc.posBlocks = [c7bl] := by
  rw [Scanner.posBlocks]
  show List.filter _ [c7bl] = [c7bl]
  have hd : decide (∀ i, 0 < c7bl.D i) = true := by
    rw [decide_eq_true_eq]
    exact fun i => one_pos
  rw [List.filter_cons, List.filter_nil, if_pos hd]

/-- The junk border contents left by `numpy.empty` in the witness. -/
def c7junk : List (BorderBufs 2) := [⟨fun _ _ => 0, fun _ => 0⟩]

theorem c7_Q (a i : Fin 2) : c7bl.Q a i = ![![1, 0], ![0, 1]] a i := rfl

theorem c7_X (a x : Fin 2) : c7sc.X a x = ![![1, 0], ![0, 0]] a x := rfl

theorem c7_y (a : Fin 2) : c7sc.y a = ![1, 2] a := rfl

theorem c7_D (i : Fin 2) : c7bl.D i = 1 := rfl

theorem c7_XTQ (x i : Fin 2) :
    XTQ c7sc c7bl x i = if x = 0 ∧ i = 0 then 1 else 0 := by
  rw [XTQ]
  simp only [Fin.sum_univ_two, c7_Q, c7_X]
  fin_cases x <;> fin_cases i <;> norm_num

theorem c7_yTQ (i : Fin 2) : yTQ c7sc c7bl i = c7sc.y i := by
  rw [yTQ]
  simp only [Fin.sum_univ_two, c7_Q, c7_y]
  fin_cases i <;> norm_num

theorem c7_yTBy : yTBy c7sc = 5 := by
  rw [yTBy, c7sc_posBlocks]
  simp only [List.map_cons, List.map_nil, List.sum_cons, List.sum_nil]
  show (∑ i : Fin 2, yTQ c7sc c7bl i * yTQ c7sc c7bl i / c7bl.D i) + 0 = 5
  simp only [Fin.sum_univ_two]
  rw [c7_yTQ 0, c7_yTQ 1, c7_D 0, c7_D 1, c7_y 0, c7_y 1]
  norm_num

theorem c7_nullb (a : Fin 2) : nullb c7sc a = if a = 0 then 1 else 0 := by
  rw [nullb, c7sc_posBlocks]
  simp only [List.map_cons, List.map_nil, List.sum_cons, List.sum_nil]
  rw [yTBX]
  show (∑ i : Fin 2, yTQDi c7sc c7bl i * XTQ c7sc c7bl a i) + 0
    = if a = 0 then 1 else 0
  simp only [yTQDi, Fin.sum_univ_two]
  rw [c7_yTQ 0, c7_yTQ 1, c7_D 0, c7_D 1, c7_XTQ a 0, c7_XTQ a 1,
    c7_y 0, c7_y 1]
  fin_cases a <;> norm_num

theorem c7_nullA (a b : Fin 2) :
    nullA c7sc a b = if a = 0 ∧ b = 0 then 1 else 0 := by
  rw [nullA, Matrix.of_apply, c7sc_posBlocks]
  simp only [List.map_cons, List.map_nil, List.sum_cons, List.sum_nil]
  rw [XTBXblock]
  show (∑ i : Fin 2, XTQDi c7sc c7bl a i * XTQ c7sc c7bl b i) + 0
    = if a = 0 ∧ b = 0 then 1 else 0
  simp only [XTQDi, Fin.sum_univ_two]
  rw [c7_XTQ a 0, c7_XTQ a 1, c7_XTQ b 0, c7_XTQ b 1, c7_D 0, c7_D 1]
  fin_cases a <;> fin_cases b <;> norm_num

/-- Witness for C7 at a concrete scanner with nonzero baseline effect
sizes: the returned effect size entry is the bordered solution's last
coordinate. -/
theorem C7_zero_candidates_witness :
    (fastScan c7sc (fun _ _ b => Except.ok b) (initBufs c7sc c7junk)
        (fun _ (_ : Fin 1) => (0:ℝ))).1.lmls
      = [nullLml c7sc (fun _ _ b => Except.ok b)]
      ∧ (fastScan c7sc (fun _ _ b => Except.ok b) (initBufs c7sc c7junk)
          (fun _ (_ : Fin 1) => (0:ℝ))).1.effsizes
        = [borderedb c7sc (Fin.last 2)] := by
  refine C7_zero_candidates c7sc (fun _ _ b => Except.ok b) c7junk (nullb c7sc)
    (borderedb c7sc) ?_ rfl rfl rfl ?_ ?_ ?_
  · rw [c7sc_posBlocks]
    rfl
  · intro a
    show (if ha : (a.castSucc : Fin 3) = Fin.last 2 then (0:ℝ)
      else nullb c7sc ((a.castSucc).castPred ha)) = nullb c7sc a
    rw [dif_neg (Fin.castSucc_lt_last a).ne, Fin.castPred_castSucc]
  · intro a
    rw [Fin.sum_univ_two, c7_nullA a 0, c7_nullA a 1, c7_nullb 0, c7_nullb 1,
      c7_nullb a]
    fin_cases a <;> norm_num
  · have hS : ∑ a, nullb c7sc a * nullb c7sc a = 1 := by
      rw [Fin.sum_univ_two, c7_nullb 0, c7_nullb 1]
      norm_num
    rw [c7_yTBy, hS]
    rw [epsilonSmall]
    rw [show (5:ℝ) - 1 = 4 from by norm_num]
    calc ((2:ℝ) ^ (52:ℕ))⁻¹ ≤ 1 := epsilonSmall_le_one
      _ ≤ 4 / (2:ℕ) := by norm_num

/-- Witness for C4 at a concrete scanner whose solver always raises. -/
theorem C4_singular_recoverable_witness :
    (candStep scEmpty (fun _ _ _ => Except.error ()) [] []).2.warned = true
      ∧ (candStep scEmpty (fun _ _ _ => Except.error ()) [] []).2.effsize = 0 := by
  have h := C4_singular_recoverable scEmpty (fun _ _ _ => Except.error ()) [] [] rfl
  exact ⟨h.1, h.2.1⟩

end Scan

end GlimixCore
